import Mathlib

/-!
# Verification of the tinymap repository

A shallow embedding, in Lean 4, of the array-backed sorted containers of the
tinymap crate (`src/array_map.rs`, `src/array_set.rs`, `src/tiny_map.rs`,
the historical `src/lib.rs` iteration, and the serde glue in
`src/serialize.rs`), together with proofs settling the specification claims.

Modelling conventions:
* The backing array `[Inner<(K, V)>; N]` of possibly-uninitialized slots is a
  `List (Option (K × V))` of length `N`; `none` models an uninitialized slot
  (`ArrayMap::default` zero-initializes every slot, and `Inner::uninit`
  produces such a slot).  Reading an uninitialized slot is undefined behaviour
  in the source; the model makes those (unreachable) reads total by returning
  `none`-derived defaults.
* `slice.swap(a, b)` is `listSwap`; the two shift loops of
  `try_insert_index` / `remove_index` are `swapDownFrom` (the descending
  `for j in ((i+1)..=len).rev()` loop) and `swapUpLoop` (the ascending
  `for j in (i+1)..len` loop, rendered as a fold over the index range).
* `slice::binary_search_by_key` is a Rust standard-library primitive, not code
  of this repository; it is modelled by its contract on the sorted occupied
  prefix (spec §4.1): `Ok(i)` for an exact match at `i`, else `Err(i)` with
  `i` the insertion index, i.e. the number of entries with smaller key.
* `std::collections::BTreeMap` is external; it is modelled from the spec
  (§6, "heap ordered-container provider") as a strictly-sorted association
  list with search-tree insert/lookup/remove semantics.
-/

set_option maxHeartbeats 1000000
set_option linter.unusedSectionVars false

namespace Tinymap

/-! ## List loop helpers -/

/-- Model of `slice.swap(a, b)`: exchange the elements at positions `a` and
`b`; out-of-range indices (a panic in Rust, never reached at the call sites
below) leave the list unchanged. -/
def listSwap {α : Type _} (l : List α) (a b : Nat) : List α :=
  match l[a]?, l[b]? with
  | some x, some y => (l.set a y).set b x
  | _, _ => l

/-- Model of the descending shift loop `for j in ((i+1)..=j0).rev()
{ slice.swap(j - 1, j) }` of `ArrayMap::try_insert_index` (called with
`j0 = len`); the historical `lib.rs` insert runs the same loop with
`j0 = len - 1` (its range is `(i+1)..len`, exclusive). -/
def swapDownFrom {α : Type _} (l : List α) (i : Nat) : Nat → List α
  | 0 => l
  | j + 1 => if i + 1 ≤ j + 1 then swapDownFrom (listSwap l j (j + 1)) i j else l

/-- Model of the ascending shift loop `for j in (i+1)..stop
{ slice.swap(j - 1, j) }` of `ArrayMap::remove_index`. -/
def swapUpLoop {α : Type _} (l : List α) (i stop : Nat) : List α :=
  (List.range' (i + 1) (stop - (i + 1))).foldl (fun acc j => listSwap acc (j - 1) j) l

theorem listSwap_length {α : Type _} (l : List α) (a b : Nat) :
    (listSwap l a b).length = l.length := by
  unfold listSwap
  cases ha : l[a]? <;> cases hb : l[b]? <;> simp

/-- A one-element segment re-glued onto the rest of the list. -/
theorem take_one_drop_append {α : Type _} (l : List α) (a : Nat) (h : a < l.length) :
    (l.drop a).take 1 ++ l.drop (a + 1) = l.drop a := by
  rw [List.drop_eq_getElem_cons h]
  rfl

/-- Splitting one element off the front of a segment. -/
theorem take_succ_seg {α : Type _} (l : List α) (a n : Nat) (h : a < l.length) :
    (l.drop a).take (n + 1) = (l.drop a).take 1 ++ (l.drop (a + 1)).take n := by
  rw [List.drop_eq_getElem_cons h]
  rfl

/-- Extending a segment by one element on the right. -/
theorem take_seg_extend {α : Type _} (l : List α) (i j : Nat) (hij : i ≤ j)
    (h : j < l.length) :
    (l.drop i).take (j - i) ++ (l.drop j).take 1 = (l.drop i).take (j - i + 1) := by
  have h0 : (l.drop j).take 1 = [l[j]] := by
    rw [List.drop_eq_getElem_cons h]
    rfl
  have h1 : (l.drop i)[j - i]? = some l[j] := by
    rw [List.getElem?_drop]
    have h2 : i + (j - i) = j := by omega
    rw [h2, List.getElem?_eq_getElem h]
  conv_rhs => rw [List.take_succ]
  rw [h0, h1]
  rfl

/-- `slice.swap(j, j + 1)` in segment form. -/
theorem listSwap_adj_eq {α : Type _} (l : List α) (j : Nat) (h : j + 1 < l.length) :
    listSwap l j (j + 1) =
      l.take j ++ ((l.drop (j + 1)).take 1 ++ ((l.drop j).take 1 ++ l.drop (j + 2))) := by
  have hj : j < l.length := by omega
  have hstep : listSwap l j (j + 1) = (l.set j l[j + 1]).set (j + 1) l[j] := by
    unfold listSwap
    rw [List.getElem?_eq_getElem hj, List.getElem?_eq_getElem h]
  rw [hstep]
  rw [List.set_eq_take_cons_drop _ hj]
  have hlen : j + 1 < (l.take j ++ l[j + 1] :: l.drop (j + 1)).length := by
    simp [List.length_take]
    omega
  rw [List.set_eq_take_cons_drop _ hlen]
  have htk : (l.take j ++ l[j + 1] :: l.drop (j + 1)).take (j + 1) =
      l.take j ++ [l[j + 1]] := by
    rw [List.take_append_eq_append_take]
    have h1 : (l.take j).length = j := by simp; omega
    simp [h1, List.take_take]
  have hdr : (l.take j ++ l[j + 1] :: l.drop (j + 1)).drop (j + 2) =
      l.drop (j + 2) := by
    rw [List.drop_append_eq_append_drop]
    have h1 : (l.take j).length = j := by simp; omega
    rw [h1]
    have h2 : (l.take j).drop (j + 2) = [] := by
      apply List.drop_eq_nil_of_le
      simp
    have h3 : j + 2 - j = 2 := by omega
    rw [h2, h3, List.nil_append]
    show (l.drop (j + 1)).drop 1 = l.drop (j + 2)
    rw [List.drop_drop]
  rw [htk, hdr]
  have hseg1 : (l.drop (j + 1)).take 1 = [l[j + 1]] := by
    rw [List.drop_eq_getElem_cons h]
    rfl
  have hseg0 : (l.drop j).take 1 = [l[j]] := by
    rw [List.drop_eq_getElem_cons hj]
    rfl
  rw [hseg1, hseg0]
  simp

/-- Characterization of the descending shift loop: it rotates the segment
`[i, j]` one step to the right, bringing the element at position `j` down to
position `i`. -/
theorem swapDownFrom_eq {α : Type _} (j : Nat) :
    ∀ (l : List α) (i : Nat), i ≤ j → j < l.length →
    swapDownFrom l i j =
      l.take i ++ ((l.drop j).take 1 ++ ((l.drop i).take (j - i) ++ l.drop (j + 1))) := by
  induction j with
  | zero =>
    intro l i hij hj
    have hi0 : i = 0 := by omega
    subst hi0
    simp only [swapDownFrom, List.take_zero, List.drop_zero, Nat.sub_zero,
      List.nil_append]
    exact (List.take_append_drop 1 l).symm
  | succ j ih =>
    intro l i hij hj
    by_cases hi : i = j + 1
    · subst hi
      have hguard : ¬ (j + 1 + 1 ≤ j + 1) := by omega
      simp only [swapDownFrom, hguard, if_false, Nat.sub_self, List.take_zero,
        List.nil_append]
      rw [take_one_drop_append l (j + 1) hj]
      exact (List.take_append_drop (j + 1) l).symm
    · have hij' : i ≤ j := by omega
      have hguard : i + 1 ≤ j + 1 := by omega
      simp only [swapDownFrom, hguard, if_true]
      set l' := listSwap l j (j + 1) with hl'
      have hexp : l' = l.take j ++ ((l.drop (j + 1)).take 1 ++ ((l.drop j).take 1 ++ l.drop (j + 2))) :=
        listSwap_adj_eq l j hj
      have hlen' : l'.length = l.length := listSwap_length l j (j + 1)
      have hjl : j < l.length := by omega
      have htkj : (l.take j).length = j := by simp; omega
      have hA : ((l.drop (j + 1)).take 1).length = 1 := by
        simp [List.length_take, List.length_drop]
        omega
      have hB : ((l.drop j).take 1).length = 1 := by
        simp [List.length_take, List.length_drop]
        omega
      -- components of l'
      have htakej : l'.take j = l.take j := by
        rw [hexp, List.take_append_eq_append_take]
        simp [htkj, List.take_take]
      have htakei : l'.take i = l.take i := by
        have e1 : l'.take i = (l'.take j).take i := by
          rw [List.take_take]
          congr 1
          omega
        rw [e1, htakej, List.take_take]
        congr 1
        omega
      have hdropj : l'.drop j = (l.drop (j + 1)).take 1 ++ ((l.drop j).take 1 ++ l.drop (j + 2)) := by
        rw [hexp, List.drop_left' htkj]
      have hsegj : (l'.drop j).take 1 = (l.drop (j + 1)).take 1 := by
        rw [hdropj, List.take_append_eq_append_take]
        simp [hA, List.take_take]
      have hmid : (l'.drop i).take (j - i) = (l.drop i).take (j - i) := by
        have e1 : (l'.drop i).take (j - i) = (l'.take j).drop i := by
          rw [List.drop_take]
        have e2 : (l.drop i).take (j - i) = (l.take j).drop i := by
          rw [List.drop_take]
        rw [e1, e2, htakej]
      have hdropj1 : l'.drop (j + 1) = (l.drop j).take 1 ++ l.drop (j + 2) := by
        have e1 : l'.drop (j + 1) = (l'.drop j).drop 1 := by
          rw [List.drop_drop]
        rw [e1, hdropj, List.drop_left' hA]
      have hjlt' : j < l'.length := by omega
      rw [ih l' i hij' hjlt', htakei, hsegj, hmid, hdropj1]
      have hext : (l.drop i).take (j - i) ++ ((l.drop j).take 1 ++ l.drop (j + 2)) =
          (l.drop i).take (j + 1 - i) ++ l.drop (j + 2) := by
        rw [← List.append_assoc, take_seg_extend l i j hij' hjl]
        congr 2
        omega
      rw [hext]

/-- Characterization of the ascending shift loop: it rotates the segment
`[i, i + n]` one step to the left, sending the element at position `i` up to
position `i + n`. -/
theorem swapUpLoop_eq {α : Type _} (n : Nat) :
    ∀ (l : List α) (i : Nat), i + n < l.length →
    swapUpLoop l i (i + n + 1) =
      l.take i ++ ((l.drop (i + 1)).take n ++ ((l.drop i).take 1 ++ l.drop (i + n + 1))) := by
  induction n with
  | zero =>
    intro l i hn
    have hcount : i + 0 + 1 - (i + 1) = 0 := by omega
    simp only [swapUpLoop, hcount, List.range'_zero, List.foldl_nil,
      List.take_zero, List.nil_append, Nat.add_zero]
    rw [take_one_drop_append l i (by omega)]
    exact (List.take_append_drop i l).symm
  | succ n ih =>
    intro l i hn
    have hi1 : i + 1 < l.length := by omega
    have hil : i < l.length := by omega
    have hcount : i + (n + 1) + 1 - (i + 1) = n + 1 := by omega
    simp only [swapUpLoop, hcount]
    rw [List.range'_succ, List.foldl_cons]
    have hidx : i + 1 - 1 = i := by omega
    rw [hidx]
    set l' := listSwap l i (i + 1) with hl'
    have hexp : l' = l.take i ++ ((l.drop (i + 1)).take 1 ++ ((l.drop i).take 1 ++ l.drop (i + 2))) :=
      listSwap_adj_eq l i hi1
    have hlen' : l'.length = l.length := listSwap_length l i (i + 1)
    have htki : (l.take i).length = i := by simp; omega
    have hA : ((l.drop (i + 1)).take 1).length = 1 := by
      simp [List.length_take, List.length_drop]
      omega
    have hB : ((l.drop i).take 1).length = 1 := by
      simp [List.length_take, List.length_drop]
      omega
    have hfold : (List.range' (i + 1 + 1) n).foldl
        (fun acc j => listSwap acc (j - 1) j) l' = swapUpLoop l' (i + 1) (i + 1 + n + 1) := by
      have hc2 : i + 1 + n + 1 - (i + 1 + 1) = n := by omega
      simp [swapUpLoop, hc2]
    have hn' : (i + 1) + n < l'.length := by omega
    rw [hfold, ih l' (i + 1) hn']
    -- components of l'
    have htakei1 : l'.take (i + 1) = l.take i ++ (l.drop (i + 1)).take 1 := by
      rw [hexp, List.take_append_eq_append_take, htki, List.take_take]
      have h3 : min (i + 1) i = i := by omega
      have h2 : i + 1 - i = 1 := by omega
      rw [h3, h2, List.take_append_eq_append_take, hA, List.take_take]
      have h4 : (1 : Nat) - 1 = 0 := by omega
      have h5 : min 1 1 = 1 := by omega
      rw [h4, h5]
      simp
    have hdropi1 : l'.drop (i + 1) = (l.drop i).take 1 ++ l.drop (i + 2) := by
      rw [hexp, List.drop_append_eq_append_drop]
      rw [htki]
      have h2 : i + 1 - i = 1 := by omega
      simp only [h2]
      have h3 : i + 1 ≤ i → False := by omega
      rw [List.drop_append_eq_append_drop, hA]
      simp [List.drop_take]
    have hdropi2 : l'.drop (i + 2) = l.drop (i + 2) := by
      have e1 : l'.drop (i + 2) = (l'.drop (i + 1)).drop 1 := by
        rw [List.drop_drop]
      rw [e1, hdropi1, List.drop_left' hB]
    have hsegi1 : (l'.drop (i + 1)).take 1 = (l.drop i).take 1 := by
      rw [hdropi1, List.take_append_eq_append_take]
      simp [hB, List.take_take]
    have hdropend : l'.drop (i + 1 + n + 1) = l.drop (i + 1 + n + 1) := by
      have e1 : l'.drop (i + 1 + n + 1) = (l'.drop (i + 2)).drop n := by
        rw [List.drop_drop]
        congr 1
        omega
      have e2 : l.drop (i + 1 + n + 1) = (l.drop (i + 2)).drop n := by
        rw [List.drop_drop]
        congr 1
        omega
      rw [e1, e2, hdropi2]
    have hmidn : (l'.drop (i + 2)).take n = (l.drop (i + 2)).take n := by
      rw [hdropi2]
    rw [htakei1, hmidn, hsegi1, hdropend]
    have hsegs : (l.drop (i + 1)).take (n + 1) =
        (l.drop (i + 1)).take 1 ++ (l.drop (i + 2)).take n := by
      exact take_succ_seg l (i + 1) n hi1
    have harr : i + 1 + n + 1 = i + (n + 1) + 1 := by omega
    rw [hsegs, harr]
    simp

/-! ## Sorted association lists

The specification-level model: the occupied prefix of an `ArrayMap` is a list
of key-value pairs with strictly ascending keys.  `keyInsert`, `removeKey` and
`lookupKey` are the list-level meanings of insert / remove / get, and
`listFind` is the contract of `slice::binary_search_by_key` on such a list
(spec §4.1). -/

def keys {K V : Type _} (es : List (K × V)) : List K := es.map Prod.fst

/-- Strictly ascending key order, the sorted invariant of spec §3. -/
def sortedKeys {K V : Type _} [LinearOrder K] (es : List (K × V)) : Prop :=
  (keys es).Pairwise (· < ·)

/-- First-match association lookup. -/
def lookupKey {K V : Type _} [DecidableEq K] : List (K × V) → K → Option V
  | [], _ => none
  | e :: rest, k => if e.1 = k then some e.2 else lookupKey rest k

/-- Sorted insert-or-replace: the list-level meaning of a map insert. -/
def keyInsert {K V : Type _} [LinearOrder K] : List (K × V) → K → V → List (K × V)
  | [], k, v => [(k, v)]
  | e :: rest, k, v =>
    if k < e.1 then (k, v) :: e :: rest
    else if k = e.1 then (k, v) :: rest
    else e :: keyInsert rest k v

/-- Remove the first entry with the given key. -/
def removeKey {K V : Type _} [DecidableEq K] : List (K × V) → K → List (K × V)
  | [], _ => []
  | e :: rest, k => if e.1 = k then rest else e :: removeKey rest k

/-- Modelled from the spec: the contract of `slice::binary_search_by_key` (a
Rust standard-library primitive, not part of this repository) on the sorted
occupied prefix — `Ok(i)` for an exact match at `i`, else `Err(i)` where `i`
is the number of entries whose key is smaller (the insertion index). -/
def listFind {K V : Type _} [LinearOrder K] : List (K × V) → K → Except Nat Nat
  | [], _ => .error 0
  | e :: rest, k =>
    if e.1 = k then .ok 0
    else
      match listFind rest k with
      | .ok i => .ok (i + 1)
      | .error i => .error (if e.1 < k then i + 1 else i)

section SortedAssoc

variable {K V : Type _} [LinearOrder K]

theorem keys_cons (e : K × V) (rest : List (K × V)) :
    keys (e :: rest) = e.1 :: keys rest := rfl

theorem sortedKeys_cons {e : K × V} {rest : List (K × V)} :
    sortedKeys (e :: rest) ↔ (∀ k' ∈ keys rest, e.1 < k') ∧ sortedKeys rest := by
  unfold sortedKeys
  rw [keys_cons, List.pairwise_cons]

theorem sortedKeys_nodup {es : List (K × V)} (h : sortedKeys es) : (keys es).Nodup :=
  h.imp ne_of_lt

theorem lookupKey_eq_none_iff {es : List (K × V)} {k : K} :
    lookupKey es k = none ↔ k ∉ keys es := by
  induction es with
  | nil => simp [lookupKey, keys]
  | cons e rest ih =>
    rw [lookupKey, keys_cons, List.mem_cons]
    by_cases he : e.1 = k
    · simp [he]
    · have hne : ¬ k = e.1 := fun h => he h.symm
      simp [he, hne, ih]

theorem lookupKey_isSome_iff {es : List (K × V)} {k : K} :
    (lookupKey es k).isSome ↔ k ∈ keys es := by
  cases hl : lookupKey es k with
  | none =>
    simp [lookupKey_eq_none_iff.mp hl]
  | some w =>
    have h3 : k ∈ keys es := by
      by_contra hmem
      rw [lookupKey_eq_none_iff.mpr hmem] at hl
      exact Option.noConfusion hl
    simp [h3]

theorem mem_keys_keyInsert {es : List (K × V)} {k k' : K} {v : V} :
    k' ∈ keys (keyInsert es k v) ↔ k' = k ∨ k' ∈ keys es := by
  induction es with
  | nil => simp [keyInsert, keys]
  | cons e rest ih =>
    by_cases h1 : k < e.1
    · rw [keyInsert, if_pos h1]
      simp [keys_cons]
    · by_cases h2 : k = e.1
      · rw [keyInsert, if_neg h1, if_pos h2]
        subst h2
        simp [keys_cons]
      · rw [keyInsert, if_neg h1, if_neg h2]
        rw [keys_cons, keys_cons, List.mem_cons, List.mem_cons, ih]
        tauto

theorem keyInsert_sorted {es : List (K × V)} {k : K} {v : V} (h : sortedKeys es) :
    sortedKeys (keyInsert es k v) := by
  induction es with
  | nil =>
    simp [keyInsert, sortedKeys, keys]
  | cons e rest ih =>
    rw [sortedKeys_cons] at h
    obtain ⟨hgt, hrest⟩ := h
    by_cases h1 : k < e.1
    · rw [keyInsert, if_pos h1, sortedKeys_cons]
      refine ⟨?_, ?_⟩
      · intro k' hk'
        rw [keys_cons, List.mem_cons] at hk'
        rcases hk' with h2 | h2
        · simpa [h2] using h1
        · exact lt_trans h1 (hgt k' h2)
      · rw [sortedKeys_cons]
        exact ⟨hgt, hrest⟩
    · by_cases h2 : k = e.1
      · rw [keyInsert, if_neg h1, if_pos h2, sortedKeys_cons]
        refine ⟨?_, hrest⟩
        intro k' hk'
        rw [h2]
        exact hgt k' hk'
      · rw [keyInsert, if_neg h1, if_neg h2, sortedKeys_cons]
        refine ⟨?_, ih hrest⟩
        intro k' hk'
        rcases mem_keys_keyInsert.mp hk' with h3 | h3
        · subst h3
          rcases lt_trichotomy k' e.1 with h4 | h4 | h4
          · exact absurd h4 h1
          · exact absurd h4 h2
          · exact h4
        · exact hgt k' h3

theorem lookupKey_keyInsert_self {es : List (K × V)} (k : K) (v : V) :
    lookupKey (keyInsert es k v) k = some v := by
  induction es with
  | nil => simp [keyInsert, lookupKey]
  | cons e rest ih =>
    by_cases h1 : k < e.1
    · rw [keyInsert, if_pos h1]
      simp [lookupKey]
    · by_cases h2 : k = e.1
      · rw [keyInsert, if_neg h1, if_pos h2]
        simp [lookupKey]
      · rw [keyInsert, if_neg h1, if_neg h2]
        have h3 : e.1 ≠ k := by
          intro h
          exact h2 h.symm
        simp [lookupKey, h3, ih]

theorem lookupKey_keyInsert_ne {es : List (K × V)} {k k' : K} (v : V) (h : k' ≠ k) :
    lookupKey (keyInsert es k v) k' = lookupKey es k' := by
  have hne : ¬ (k = k') := fun h' => h h'.symm
  induction es with
  | nil => simp [keyInsert, lookupKey, hne]
  | cons e rest ih =>
    by_cases h1 : k < e.1
    · rw [keyInsert, if_pos h1]
      rw [lookupKey]
      simp [hne]
    · by_cases h2 : k = e.1
      · rw [keyInsert, if_neg h1, if_pos h2]
        rw [lookupKey, lookupKey]
        have h3 : ¬ (k = k') := fun h' => h h'.symm
        have h4 : ¬ (e.1 = k') := by
          rw [← h2]
          exact h3
        simp [h3, h4]
      · rw [keyInsert, if_neg h1, if_neg h2]
        rw [lookupKey, lookupKey]
        by_cases h5 : e.1 = k'
        · simp [h5]
        · simp [h5, ih]

theorem length_keyInsert_absent {es : List (K × V)} {k : K} (v : V)
    (h : k ∉ keys es) : (keyInsert es k v).length = es.length + 1 := by
  induction es with
  | nil => simp [keyInsert]
  | cons e rest ih =>
    rw [keys_cons, List.mem_cons] at h
    push_neg at h
    by_cases h1 : k < e.1
    · rw [keyInsert, if_pos h1]
      simp
    · rw [keyInsert, if_neg h1, if_neg h.1]
      simp [ih h.2]

theorem length_keyInsert_present {es : List (K × V)} {k : K} {w : V} (v : V)
    (hs : sortedKeys es) (h : lookupKey es k = some w) :
    (keyInsert es k v).length = es.length := by
  induction es with
  | nil => simp [lookupKey] at h
  | cons e rest ih =>
    rw [sortedKeys_cons] at hs
    by_cases h2 : e.1 = k
    · have h1 : ¬ k < e.1 := by
        rw [h2]
        exact lt_irrefl k
      rw [keyInsert, if_neg h1, if_pos h2.symm]
      simp
    · rw [lookupKey, if_neg h2] at h
      have hmem : k ∈ keys rest := by
        by_contra hmem
        rw [lookupKey_eq_none_iff.mpr hmem] at h
        exact Option.noConfusion h
      have hgt : e.1 < k := hs.1 k hmem
      have h1 : ¬ k < e.1 := lt_asymm hgt
      have h3 : ¬ k = e.1 := fun hh => absurd (hh ▸ hgt) (lt_irrefl _)
      rw [keyInsert, if_neg h1, if_neg h3]
      simp [ih hs.2 h]

theorem removeKey_sublist (es : List (K × V)) (k : K) : (removeKey es k).Sublist es := by
  induction es with
  | nil => simp [removeKey]
  | cons e rest ih =>
    rw [removeKey]
    by_cases h : e.1 = k
    · rw [if_pos h]
      exact List.sublist_cons_self e rest
    · rw [if_neg h]
      exact ih.cons₂ e

theorem removeKey_sorted {es : List (K × V)} {k : K} (h : sortedKeys es) :
    sortedKeys (removeKey es k) :=
  List.Pairwise.sublist ((removeKey_sublist es k).map Prod.fst) h

theorem mem_keys_removeKey {es : List (K × V)} {k k' : K} (hs : sortedKeys es) :
    k' ∈ keys (removeKey es k) ↔ k' ∈ keys es ∧ k' ≠ k := by
  induction es with
  | nil => simp [removeKey, keys]
  | cons e rest ih =>
    rw [sortedKeys_cons] at hs
    rw [removeKey]
    by_cases h : e.1 = k
    · rw [if_pos h, keys_cons, List.mem_cons]
      constructor
      · intro hm
        refine ⟨Or.inr hm, ?_⟩
        intro hk
        have h2 : e.1 < k' := hs.1 k' hm
        rw [h, hk] at h2
        exact lt_irrefl k h2
      · rintro ⟨hm | hm, hne⟩
        · rw [hm, h] at hne
          exact absurd rfl hne
        · exact hm
    · rw [if_neg h, keys_cons, keys_cons, List.mem_cons, List.mem_cons, ih hs.2]
      have h2 : k' = e.1 → k' ≠ k := by
        intro hh
        rw [hh]
        exact h
      tauto

theorem lookupKey_removeKey_self {es : List (K × V)} {k : K} (hs : sortedKeys es) :
    lookupKey (removeKey es k) k = none := by
  rw [lookupKey_eq_none_iff]
  intro hmem
  rw [mem_keys_removeKey hs] at hmem
  exact hmem.2 rfl

theorem lookupKey_removeKey_ne {es : List (K × V)} {k k' : K} (h : k' ≠ k) :
    lookupKey (removeKey es k) k' = lookupKey es k' := by
  induction es with
  | nil => simp [removeKey]
  | cons e rest ih =>
    rw [removeKey]
    by_cases he : e.1 = k
    · rw [if_pos he, lookupKey]
      have h2 : ¬ (e.1 = k') := by
        rw [he]
        exact fun hh => h hh.symm
      rw [if_neg h2]
    · rw [if_neg he, lookupKey, lookupKey]
      by_cases he' : e.1 = k'
      · rw [if_pos he', if_pos he']
      · rw [if_neg he', if_neg he', ih]

theorem length_removeKey_present {es : List (K × V)} {k : K} {w : V}
    (h : lookupKey es k = some w) : (removeKey es k).length + 1 = es.length := by
  induction es with
  | nil => simp [lookupKey] at h
  | cons e rest ih =>
    rw [lookupKey] at h
    rw [removeKey]
    by_cases he : e.1 = k
    · rw [if_pos he]
      simp
    · rw [if_neg he] at h
      rw [if_neg he]
      have h2 := ih h
      simp only [List.length_cons]
      omega

theorem removeKey_absent {es : List (K × V)} {k : K} (h : k ∉ keys es) :
    removeKey es k = es := by
  induction es with
  | nil => rfl
  | cons e rest ih =>
    rw [keys_cons, List.mem_cons] at h
    push_neg at h
    rw [removeKey, if_neg (fun hh => h.1 hh.symm), ih h.2]

theorem listFind_all_gt {es : List (K × V)} {k : K} (h : ∀ e ∈ es, k < e.1) :
    listFind es k = .error 0 := by
  induction es with
  | nil => rfl
  | cons e rest ih =>
    have hhead : k < e.1 := h e (List.mem_cons_self e rest)
    have h1 : ¬ (e.1 = k) := fun hh => absurd hhead (by rw [hh]; exact lt_irrefl k)
    rw [listFind, if_neg h1, ih (fun e' he' => h e' (List.mem_cons_of_mem e he'))]
    have h2 : ¬ (e.1 < k) := lt_asymm hhead
    simp [h2]

theorem listFind_absent {es : List (K × V)} {k : K} (hs : sortedKeys es)
    (h : k ∉ keys es) :
    ∃ i, listFind es k = .error i ∧ i ≤ es.length ∧
      ∀ v, es.take i ++ (k, v) :: es.drop i = keyInsert es k v := by
  induction es with
  | nil =>
    exact ⟨0, rfl, by simp, fun v => by simp [keyInsert]⟩
  | cons e rest ih =>
    rw [sortedKeys_cons] at hs
    rw [keys_cons, List.mem_cons] at h
    push_neg at h
    have hek : ¬ (e.1 = k) := fun hh => h.1 hh.symm
    rcases lt_trichotomy k e.1 with hlt | heq | hgt
    · have hall : ∀ e' ∈ rest, k < e'.1 := by
        intro e' he'
        exact lt_trans hlt (hs.1 e'.1 (List.mem_map_of_mem Prod.fst he'))
      refine ⟨0, ?_, by simp, ?_⟩
      · rw [listFind, if_neg hek, listFind_all_gt hall]
        have h2 : ¬ (e.1 < k) := lt_asymm hlt
        simp [h2]
      · intro v
        rw [keyInsert, if_pos hlt]
        simp
    · exact absurd heq h.1
    · obtain ⟨i, hfind, hle, heq2⟩ := ih hs.2 h.2
      have hnlt : ¬ (k < e.1) := lt_asymm hgt
      have hneq : ¬ (k = e.1) := fun hh => absurd (hh ▸ hgt) (lt_irrefl _)
      refine ⟨i + 1, ?_, by simp; omega, ?_⟩
      · rw [listFind, if_neg hek, hfind]
        simp [hgt]
      · intro v
        rw [keyInsert, if_neg hnlt, if_neg hneq, List.take_succ_cons, List.drop_succ_cons,
          List.cons_append, heq2 v]

theorem listFind_present {es : List (K × V)} {k : K} {w : V} (hs : sortedKeys es)
    (h : lookupKey es k = some w) :
    ∃ i, listFind es k = .ok i ∧ i < es.length ∧ es[i]? = some (k, w) ∧
      (∀ v, es.set i (k, v) = keyInsert es k v) ∧ es.eraseIdx i = removeKey es k := by
  induction es with
  | nil => simp [lookupKey] at h
  | cons e rest ih =>
    rw [sortedKeys_cons] at hs
    rw [lookupKey] at h
    by_cases hek : e.1 = k
    · rw [if_pos hek] at h
      have hw : e.2 = w := Option.some.inj h
      have hew : e = (k, w) := by
        obtain ⟨e1, e2⟩ := e
        simp at hek hw
        rw [hek, hw]
      refine ⟨0, ?_, by simp, ?_, ?_, ?_⟩
      · rw [listFind, if_pos hek]
      · simp [hew]
      · intro v
        have h1 : ¬ k < e.1 := by
          rw [hek]
          exact lt_irrefl k
        rw [keyInsert, if_neg h1, if_pos hek.symm]
        rfl
      · rw [removeKey, if_pos hek]
        rfl
    · rw [if_neg hek] at h
      obtain ⟨i, hfind, hlt, hget, hset, herase⟩ := ih hs.2 h
      have hmem : k ∈ keys rest := by
        have h2 : (lookupKey rest k).isSome := by
          rw [h]
          rfl
        exact lookupKey_isSome_iff.mp h2
      have hlt1 : e.1 < k := hs.1 k hmem
      refine ⟨i + 1, ?_, by simp; omega, ?_, ?_, ?_⟩
      · rw [listFind, if_neg hek, hfind]
      · simpa using hget
      · intro v
        rw [keyInsert, if_neg (lt_asymm hlt1), if_neg (fun hh => absurd (hh ▸ hlt1) (lt_irrefl _))]
        have h3 : (e :: rest).set (i + 1) (k, v) = e :: rest.set i (k, v) := rfl
        rw [h3, hset v]
      · rw [removeKey, if_neg hek]
        have h3 : (e :: rest).eraseIdx (i + 1) = e :: rest.eraseIdx i := rfl
        rw [h3, herase]

/-- Fold a batch of pairs into a sorted association list: the list-level
meaning of a sequence of inserts (and of the promotion drain loop). -/
def insertList (acc ps : List (K × V)) : List (K × V) :=
  ps.foldl (fun a e => keyInsert a e.1 e.2) acc

theorem insertList_nil (acc : List (K × V)) : insertList acc [] = acc := rfl

theorem insertList_cons (acc : List (K × V)) (e : K × V) (ps : List (K × V)) :
    insertList acc (e :: ps) = insertList (keyInsert acc e.1 e.2) ps := rfl

theorem keyInsert_append_gt {es : List (K × V)} {k : K} (v : V)
    (h : ∀ e ∈ es, e.1 < k) : keyInsert es k v = es ++ [(k, v)] := by
  induction es with
  | nil => rfl
  | cons e rest ih =>
    have hhead : e.1 < k := h e (List.mem_cons_self e rest)
    rw [keyInsert, if_neg (lt_asymm hhead),
      if_neg (fun hh => absurd (hh ▸ hhead) (lt_irrefl _)),
      ih (fun e' he' => h e' (List.mem_cons_of_mem e he')), List.cons_append]

theorem insertList_sorted_id {ps : List (K × V)} :
    ∀ {acc : List (K × V)}, sortedKeys (acc ++ ps) → insertList acc ps = acc ++ ps := by
  induction ps with
  | nil =>
    intro acc h
    simp [insertList_nil]
  | cons e rest ih =>
    intro acc h
    rw [insertList_cons]
    have hlt : ∀ a ∈ acc, a.1 < e.1 := by
      intro a ha
      have h2 : (keys (acc ++ e :: rest)).Pairwise (· < ·) := h
      rw [keys, List.map_append] at h2
      have h3 := (List.pairwise_append.mp h2).2.2
      exact h3 a.1 (List.mem_map_of_mem Prod.fst ha) e.1 (by simp [keys])
    have hstep : keyInsert acc e.1 e.2 = acc ++ [e] := by
      rw [keyInsert_append_gt e.2 hlt]
    rw [hstep]
    have h4 : sortedKeys ((acc ++ [e]) ++ rest) := by
      rw [List.append_assoc, List.singleton_append]
      exact h
    rw [ih h4, List.append_assoc, List.singleton_append]

theorem insertList_sorted_self {es : List (K × V)} (h : sortedKeys es) :
    insertList [] es = es := by
  have h2 : sortedKeys (([] : List (K × V)) ++ es) := by simpa using h
  simpa using insertList_sorted_id h2

theorem insertList_sorted {ps : List (K × V)} :
    ∀ {acc : List (K × V)}, sortedKeys acc → sortedKeys (insertList acc ps) := by
  induction ps with
  | nil => intro acc h; simpa [insertList_nil] using h
  | cons e rest ih =>
    intro acc h
    rw [insertList_cons]
    exact ih (keyInsert_sorted h)

theorem mem_keys_insertList {ps : List (K × V)} {k : K} :
    ∀ {acc : List (K × V)}, k ∈ keys (insertList acc ps) ↔ k ∈ keys ps ∨ k ∈ keys acc := by
  induction ps with
  | nil => intro acc; simp [insertList_nil, keys]
  | cons e rest ih =>
    intro acc
    rw [insertList_cons, ih, keys_cons, List.mem_cons, mem_keys_keyInsert]
    tauto

theorem lookupKey_insertList_absent {ps : List (K × V)} {k : K}
    (h : k ∉ keys ps) :
    ∀ {acc : List (K × V)}, lookupKey (insertList acc ps) k = lookupKey acc k := by
  induction ps with
  | nil => intro acc; rfl
  | cons e rest ih =>
    intro acc
    rw [keys_cons, List.mem_cons] at h
    push_neg at h
    rw [insertList_cons, ih h.2, lookupKey_keyInsert_ne e.2 h.1]

theorem lookupKey_insertList_mem {ps : List (K × V)} {k : K} {v : V}
    (hnd : (keys ps).Nodup) (hmem : (k, v) ∈ ps) :
    ∀ {acc : List (K × V)}, lookupKey (insertList acc ps) k = some v := by
  induction ps with
  | nil => simp at hmem
  | cons e rest ih =>
    intro acc
    rw [keys_cons, List.nodup_cons] at hnd
    rw [insertList_cons]
    rcases List.mem_cons.mp hmem with he | he
    · have hk : k = e.1 := by rw [← he]
      have hv : v = e.2 := by rw [← he]
      have habs : k ∉ keys rest := by
        rw [hk]
        exact hnd.1
      rw [lookupKey_insertList_absent habs, hk, hv]
      exact lookupKey_keyInsert_self e.1 e.2
    · exact ih hnd.2 he

theorem length_insertList_disjoint {ps : List (K × V)}
    (hnd : (keys ps).Nodup) :
    ∀ {acc : List (K × V)}, (∀ e ∈ ps, e.1 ∉ keys acc) →
    (insertList acc ps).length = acc.length + ps.length := by
  induction ps with
  | nil => intro acc _; simp [insertList_nil]
  | cons e rest ih =>
    intro acc hdisj
    rw [keys_cons, List.nodup_cons] at hnd
    rw [insertList_cons]
    have hd2 : ∀ e' ∈ rest, e'.1 ∉ keys (keyInsert acc e.1 e.2) := by
      intro e' he'
      rw [mem_keys_keyInsert]
      rintro (hh | hh)
      · apply hnd.1
        rw [← hh]
        exact List.mem_map_of_mem Prod.fst he'
      · exact hdisj e' (List.mem_cons_of_mem e he') hh
    rw [ih hnd.2 hd2, length_keyInsert_absent e.2 (hdisj e (List.mem_cons_self e rest))]
    simp only [List.length_cons]
    omega

end SortedAssoc

/-! ## ArrayMap (`src/array_map.rs`)

The backing `MapArray` of `Inner<(K, V)>` slots is a `List (Option (K × V))`
whose length is the compile-time capacity `A::CAPACITY`; `len` counts the
occupied prefix. -/

structure ArrayMap (K V : Type _) where
  array : List (Option (K × V))
  len : Nat
deriving DecidableEq

/-- `ArrayMap::new` / `Default::default`: a zeroed (all-uninitialized) array
and `len = 0`. -/
def ArrayMap.new (K V : Type _) (cap : Nat) : ArrayMap K V :=
  ⟨List.replicate cap none, 0⟩

/-- `ArrayMap::capacity`, i.e. `A::CAPACITY`. -/
def ArrayMap.capacity {K V : Type _} (m : ArrayMap K V) : Nat := m.array.length

/-- `ArrayMap::is_empty`. -/
def ArrayMap.is_empty {K V : Type _} (m : ArrayMap K V) : Bool := m.len == 0

/-- The pair sequence produced by `ArrayMap::iter`: a forward scan of the
occupied prefix `[0, len)`.  (Reading an uninitialized slot is UB in Rust;
the total model skips such slots, which never occur in well-formed states.) -/
def ArrayMap.toList {K V : Type _} (m : ArrayMap K V) : List (K × V) :=
  (m.array.take m.len).filterMap id

/-- `slice::binary_search_by_key` on the occupied prefix, by its contract
(see `listFind`); an uninitialized slot never matches and does not count
toward the insertion index. -/
def slotFind {K V : Type _} [LinearOrder K] : List (Option (K × V)) → K → Except Nat Nat
  | [], _ => .error 0
  | s :: rest, k =>
    match s with
    | some e =>
      if e.1 = k then .ok 0
      else
        match slotFind rest k with
        | .ok i => .ok (i + 1)
        | .error i => .error (if e.1 < k then i + 1 else i)
    | none =>
      match slotFind rest k with
      | .ok i => .ok (i + 1)
      | .error i => .error i

/-- `ArrayMap::find`. -/
def ArrayMap.find {K V : Type _} [LinearOrder K] (m : ArrayMap K V) (key : K) :
    Except Nat Nat :=
  slotFind (m.array.take m.len) key

/-- `ArrayMap::get`. -/
def ArrayMap.get {K V : Type _} [LinearOrder K] (m : ArrayMap K V) (key : K) :
    Option V :=
  match m.find key with
  | .ok i => (m.array.getD i none).map Prod.snd
  | .error _ => none

/-- `ArrayMap::contains_key`. -/
def ArrayMap.contains_key {K V : Type _} [LinearOrder K] (m : ArrayMap K V)
    (key : K) : Bool :=
  match m.find key with
  | .ok _ => true
  | .error _ => false

/-- `ArrayMap::try_insert_index`: capacity check first, then either the
caller-provided vacant index (`Err(index)`) or `find`; on a hit the slot is
swapped for the new entry and the old value returned; on a miss the
`(i+1)..=len` descending swap loop shifts the tail right and the new entry is
placed at `i`.  The state is returned alongside the `Result` (the `Err` path
returns `self` untouched, mirroring the early return before any mutation). -/
def ArrayMap.try_insert_index {K V : Type _} [LinearOrder K] (m : ArrayMap K V)
    (key : K) (value : V) (index : Option Nat) :
    ArrayMap K V × Except (K × V) (Option V) :=
  if m.len = m.capacity then (m, .error (key, value))
  else
    let i := match index with
      | some index => Except.error index
      | none => m.find key
    match i with
    | .ok i =>
      let entry := m.array.getD i none
      ({ m with array := m.array.set i (some (key, value)) }, .ok (entry.map Prod.snd))
    | .error i =>
      let slice := swapDownFrom m.array i m.len
      ({ array := slice.set i (some (key, value)), len := m.len + 1 }, .ok none)

/-- `ArrayMap::try_insert`. -/
def ArrayMap.try_insert {K V : Type _} [LinearOrder K] (m : ArrayMap K V)
    (key : K) (value : V) : ArrayMap K V × Except (K × V) (Option V) :=
  m.try_insert_index key value none

/-- `ArrayMap::insert`: `try_insert` with the capacity failure escalated to a
panic, modelled as `none`. -/
def ArrayMap.insert {K V : Type _} [LinearOrder K] (m : ArrayMap K V)
    (key : K) (value : V) : Option (ArrayMap K V × Option V) :=
  match m.try_insert key value with
  | (m', .ok r) => some (m', r)
  | (_, .error _) => none

/-- `ArrayMap::remove_index`: swap an uninitialized slot into position `i`
(capturing the entry), close the gap with the ascending `(i+1)..len` swap
loop, and decrement `len`. -/
def ArrayMap.remove_index {K V : Type _} (m : ArrayMap K V) (i : Nat) :
    ArrayMap K V × Option (K × V) :=
  let entry := m.array.getD i none
  let slice := m.array.set i none
  ({ array := swapUpLoop slice i m.len, len := m.len - 1 }, entry)

/-- `ArrayMap::remove`. -/
def ArrayMap.remove {K V : Type _} [LinearOrder K] (m : ArrayMap K V) (key : K) :
    ArrayMap K V × Option V :=
  match m.find key with
  | .ok i =>
    let r := m.remove_index i
    (r.1, r.2.map Prod.snd)
  | .error _ => (m, none)

/-- The `Entry` view of `ArrayMap::entry`: the matched index (`Occupied`) or
the key plus the binary-search insertion index (`Vacant`); the map borrow is
passed separately in the model. -/
inductive Entry (K V : Type _) where
  | Vacant (index : Nat) (key : K)
  | Occupied (index : Nat)
deriving DecidableEq

/-- `ArrayMap::entry`. -/
def ArrayMap.entry {K V : Type _} [LinearOrder K] (m : ArrayMap K V) (key : K) :
    Entry K V :=
  match m.find key with
  | .ok i => .Occupied i
  | .error i => .Vacant i key

/-- `Entry::or_insert`: `Occupied` → `into_mut`, the value at the matched
slot; `Vacant` → `VacantEntry::insert`, i.e. `try_insert_index` with the
precomputed index followed by a read of slot `index`; the capacity panic is
modelled as `none`. -/
def Entry.or_insert {K V : Type _} [LinearOrder K] (m : ArrayMap K V) :
    Entry K V → V → Option (ArrayMap K V × V)
  | .Occupied i, _ => ((m.array.getD i none).map Prod.snd).map (fun w => (m, w))
  | .Vacant i key, d =>
    match m.try_insert_index key d (some i) with
    | (m', .ok _) => ((m'.array.getD i none).map Prod.snd).map (fun w => (m', w))
    | (_, .error _) => none

/-- Representation invariant (spec §3): `len` within capacity, occupied
prefix fully initialized, keys strictly ascending. -/
def ArrayMap.WF {K V : Type _} [LinearOrder K] (m : ArrayMap K V) : Prop :=
  m.len ≤ m.array.length ∧
  m.array.take m.len = m.toList.map some ∧
  sortedKeys m.toList

/-! ## ArrayMap simulation lemmas

Each operation, run on a well-formed map, acts on `toList` as the
corresponding sorted-association-list operation. -/

section ArrayMapLemmas

variable {K V : Type _} [LinearOrder K]

theorem slotFind_map_some (es : List (K × V)) (k : K) :
    slotFind (es.map some) k = listFind es k := by
  induction es with
  | nil => rfl
  | cons e rest ih =>
    rw [List.map_cons, slotFind, listFind, ih]

theorem filterMap_id_map_some {α : Type _} (l : List α) :
    (l.map some).filterMap id = l := by
  induction l with
  | nil => rfl
  | cons a l ih => simp [ih]

theorem swapDownFrom_length {α : Type _} (j : Nat) :
    ∀ (l : List α) (i : Nat), (swapDownFrom l i j).length = l.length := by
  induction j with
  | zero => intro l i; rfl
  | succ j ih =>
    intro l i
    rw [swapDownFrom]
    by_cases h : i + 1 ≤ j + 1
    · rw [if_pos h, ih, listSwap_length]
    · rw [if_neg h]

theorem swapUpLoop_length {α : Type _} (l : List α) (i stop : Nat) :
    (swapUpLoop l i stop).length = l.length := by
  rw [swapUpLoop]
  generalize List.range' (i + 1) (stop - (i + 1)) = js
  induction js generalizing l with
  | nil => rfl
  | cons j js ih =>
    rw [List.foldl_cons, ih, listSwap_length]

theorem ArrayMap.toList_length {m : ArrayMap K V} (hwf : m.WF) :
    m.toList.length = m.len := by
  obtain ⟨hlen, hpre, _⟩ := hwf
  have h1 : (m.array.take m.len).length = m.len := by
    rw [List.length_take]
    omega
  rw [hpre] at h1
  simpa using h1

theorem ArrayMap.find_eq_listFind {m : ArrayMap K V} (hwf : m.WF) (k : K) :
    m.find k = listFind m.toList k := by
  rw [ArrayMap.find, hwf.2.1, slotFind_map_some]

theorem ArrayMap.read_prefix {m : ArrayMap K V} (hwf : m.WF) {i : Nat}
    (hi : i < m.len) :
    m.array.getD i none = m.toList[i]? := by
  obtain ⟨hlen, hpre, _⟩ := hwf
  have h1 : m.array.getD i none = m.array[i]?.getD none :=
    List.getD_eq_getElem?_getD ..
  have h2 : m.array[i]? = (m.array.take m.len)[i]? := by
    rw [List.getElem?_take, if_pos hi]
  rw [h1, h2, hpre, List.getElem?_map]
  have hil : i < m.toList.length := by
    have h3 : (m.array.take m.len).length = m.len := by
      rw [List.length_take]
      omega
    rw [hpre] at h3
    simp at h3
    omega
  rw [List.getElem?_eq_getElem hil]
  rfl

theorem ArrayMap.WF_new (K V : Type _) [LinearOrder K] (cap : Nat) :
    (ArrayMap.new K V cap).WF := by
  refine ⟨by simp [ArrayMap.new], ?_, ?_⟩
  · simp [ArrayMap.new, ArrayMap.toList]
  · simp [ArrayMap.new, ArrayMap.toList, sortedKeys, keys]

theorem ArrayMap.toList_new (K V : Type _) (cap : Nat) :
    (ArrayMap.new K V cap).toList = [] := by
  simp [ArrayMap.new, ArrayMap.toList]

theorem ArrayMap.capacity_new (K V : Type _) (cap : Nat) :
    (ArrayMap.new K V cap).capacity = cap := by
  simp [ArrayMap.new, ArrayMap.capacity]

/-- `try_insert` on a full map: the capacity check fires before any mutation
and hands the pair back; the map is untouched. -/
theorem ArrayMap.try_insert_full {m : ArrayMap K V} (k : K) (v : V)
    (hfull : m.len = m.array.length) :
    m.try_insert k v = (m, .error (k, v)) := by
  have hc : m.len = m.capacity := hfull
  rw [ArrayMap.try_insert, ArrayMap.try_insert_index, if_pos hc]

/-- `try_insert` of an absent key with room left: the occupied prefix becomes
the sorted insert of the new pair, `len` grows by one, and `Ok(None)` is
returned. -/
theorem ArrayMap.try_insert_absent {m : ArrayMap K V} {k : K} (v : V)
    (hwf : m.WF) (hroom : m.len < m.array.length) (habs : k ∉ keys m.toList) :
    ∃ m', m.try_insert k v = (m', .ok none) ∧ m'.WF ∧
      m'.toList = keyInsert m.toList k v ∧ m'.len = m.len + 1 ∧
      m'.array.length = m.array.length := by
  obtain ⟨i, hfind, hle, hcons⟩ := listFind_absent hwf.2.2 habs
  have hlistlen : m.toList.length = m.len := ArrayMap.toList_length hwf
  have hile : i ≤ m.len := by omega
  have hil : i < m.array.length := by omega
  have hfind2 : m.find k = .error i := by rw [ArrayMap.find_eq_listFind hwf, hfind]
  have hnotfull : ¬ (m.len = m.capacity) := by
    rw [ArrayMap.capacity]
    omega
  -- the shifted-and-placed array
  have hslice := swapDownFrom_eq m.len m.array i hile hroom
  have htki : (m.array.take i).length = i := by simp; omega
  have harr : (swapDownFrom m.array i m.len).set i (some (k, v)) =
      m.array.take i ++ (some (k, v) ::
        ((m.array.drop i).take (m.len - i) ++ m.array.drop (m.len + 1))) := by
    rw [hslice]
    rw [List.set_append, htki, if_neg (lt_irrefl i)]
    have h0 : i - i = 0 := by omega
    rw [h0]
    have hseg : (m.array.drop m.len).take 1 = [m.array[m.len]] := by
      rw [List.drop_eq_getElem_cons hroom]
      rfl
    rw [hseg]
    rfl
  -- the new occupied prefix is the sorted insert, slot-lifted
  have hseg2 : (m.array.drop i).take (m.len - i) = (m.toList.drop i).map some := by
    rw [← List.drop_take, hwf.2.1, ← List.map_drop]
  have htkiq : m.array.take i = (m.toList.take i).map some := by
    have e1 : m.array.take i = (m.array.take m.len).take i := by
      rw [List.take_take]
      congr 1
      omega
    rw [e1, hwf.2.1, ← List.map_take]
  have hprefix : (m.array.take i ++ (some (k, v) ::
      ((m.array.drop i).take (m.len - i) ++ m.array.drop (m.len + 1)))).take (m.len + 1) =
      (keyInsert m.toList k v).map some := by
    rw [List.take_append_eq_append_take, htki]
    have e1 : (m.array.take i).take (m.len + 1) = m.array.take i := by
      rw [List.take_take]
      congr 1
      omega
    have e2 : m.len + 1 - i = (m.len - i) + 1 := by omega
    rw [e1, e2, List.take_succ_cons, List.take_append_eq_append_take]
    have hlseg : ((m.array.drop i).take (m.len - i)).length = m.len - i := by
      simp [List.length_take, List.length_drop]
      omega
    have e3 : ((m.array.drop i).take (m.len - i)).take (m.len - i) =
        (m.array.drop i).take (m.len - i) := by
      rw [List.take_take]
      simp
    rw [hlseg, e3]
    have e4 : m.len - i - (m.len - i) = 0 := by omega
    rw [e4, List.take_zero, List.append_nil]
    rw [htkiq, hseg2, ← hcons v]
    simp
  set m' : ArrayMap K V :=
    ⟨(swapDownFrom m.array i m.len).set i (some (k, v)), m.len + 1⟩ with hm'
  have harray : m'.array = m.array.take i ++ (some (k, v) ::
      ((m.array.drop i).take (m.len - i) ++ m.array.drop (m.len + 1))) := harr
  have hlen2 : m'.len = m.len + 1 := rfl
  have hpre2 : m'.array.take m'.len = (keyInsert m.toList k v).map some := by
    rw [harray, hlen2]
    exact hprefix
  have htl2 : m'.toList = keyInsert m.toList k v := by
    rw [ArrayMap.toList, hpre2, filterMap_id_map_some]
  have hlen3 : m'.array.length = m.array.length := by
    show ((swapDownFrom m.array i m.len).set i (some (k, v))).length = m.array.length
    rw [List.length_set, swapDownFrom_length]
  refine ⟨m', ?_, ⟨?_, ?_, ?_⟩, htl2, hlen2, hlen3⟩
  · rw [ArrayMap.try_insert, ArrayMap.try_insert_index, if_neg hnotfull]
    simp only [hfind2]
  · rw [hlen2, hlen3]
    omega
  · rw [hpre2, htl2]
  · rw [htl2]
    exact keyInsert_sorted hwf.2.2

/-- `try_insert` of a present key with room left: the slot is overwritten in
place, `Ok(Some(old))` is returned, and `len` is unchanged. -/
theorem ArrayMap.try_insert_present {m : ArrayMap K V} {k : K} {w : V} (v : V)
    (hwf : m.WF) (hroom : m.len < m.array.length)
    (hlook : lookupKey m.toList k = some w) :
    ∃ m', m.try_insert k v = (m', .ok (some w)) ∧ m'.WF ∧
      m'.toList = keyInsert m.toList k v ∧ m'.len = m.len ∧
      m'.array.length = m.array.length := by
  obtain ⟨i, hfind, hlt, hget, hset, herase⟩ := listFind_present hwf.2.2 hlook
  have hlistlen : m.toList.length = m.len := ArrayMap.toList_length hwf
  have hi : i < m.len := by omega
  have hfind2 : m.find k = .ok i := by rw [ArrayMap.find_eq_listFind hwf, hfind]
  have hnotfull : ¬ (m.len = m.capacity) := by
    rw [ArrayMap.capacity]
    omega
  have hread : m.array.getD i none = some (k, w) := by
    rw [ArrayMap.read_prefix hwf hi, hget]
  set m' : ArrayMap K V := { m with array := m.array.set i (some (k, v)) } with hm'
  have hlen2 : m'.len = m.len := rfl
  have hpre2 : m'.array.take m'.len = (keyInsert m.toList k v).map some := by
    show (m.array.set i (some (k, v))).take m.len = _
    rw [List.set_take, hwf.2.1, ← List.map_set, hset v]
  have htl2 : m'.toList = keyInsert m.toList k v := by
    rw [ArrayMap.toList, hpre2, filterMap_id_map_some]
  have hlen3 : m'.array.length = m.array.length := by
    show (m.array.set i (some (k, v))).length = m.array.length
    rw [List.length_set]
  refine ⟨m', ?_, ⟨?_, ?_, ?_⟩, htl2, hlen2, hlen3⟩
  · rw [ArrayMap.try_insert, ArrayMap.try_insert_index, if_neg hnotfull]
    simp only [hfind2, hread]
    rfl
  · rw [hlen2, hlen3]
    omega
  · rw [hpre2, htl2]
  · rw [htl2]
    exact keyInsert_sorted hwf.2.2

/-- `remove` of a present key: the entry is moved out, the tail shifted left,
`len` decremented. -/
theorem ArrayMap.remove_present {m : ArrayMap K V} {k : K} {w : V}
    (hwf : m.WF) (hlook : lookupKey m.toList k = some w) :
    ∃ m', m.remove k = (m', some w) ∧ m'.WF ∧
      m'.toList = removeKey m.toList k ∧ m'.len + 1 = m.len ∧
      m'.array.length = m.array.length := by
  obtain ⟨i, hfind, hlt, hget, hset, herase⟩ := listFind_present hwf.2.2 hlook
  have hlistlen : m.toList.length = m.len := ArrayMap.toList_length hwf
  have hi : i < m.len := by omega
  have hlenle : m.len ≤ m.array.length := hwf.1
  have hil : i < m.array.length := by omega
  have hfind2 : m.find k = .ok i := by rw [ArrayMap.find_eq_listFind hwf, hfind]
  have hread : m.array.getD i none = some (k, w) := by
    rw [ArrayMap.read_prefix hwf hi, hget]
  set slice := m.array.set i none with hsl
  set n := m.len - 1 - i with hn
  have hstop : m.len = i + n + 1 := by omega
  have hslicelen : slice.length = m.array.length := by
    rw [hsl, List.length_set]
  have hinlt : i + n < slice.length := by
    have h9 : slice.length = m.array.length := hslicelen
    omega
  have hloop : swapUpLoop slice i m.len =
      slice.take i ++ ((slice.drop (i + 1)).take n ++
        ((slice.drop i).take 1 ++ slice.drop (i + n + 1))) := by
    rw [hstop]
    exact swapUpLoop_eq n slice i hinlt
  -- slice components
  have hstake : slice.take i = m.array.take i := by
    rw [hsl, List.set_take, List.set_eq_of_length_le]
    rw [List.length_take]
    omega
  have hsdrop1 : slice.drop (i + 1) = m.array.drop (i + 1) := by
    rw [hsl, List.drop_set, if_pos (by omega)]
  have hsdropi : (slice.drop i).take 1 = [none] := by
    have h1 : i < slice.length := by omega
    rw [List.drop_eq_getElem_cons h1]
    have h4 : slice[i]? = some none := by
      rw [hsl]
      exact List.getElem?_set_self hil
    have h5 : slice[i]? = some slice[i] := List.getElem?_eq_getElem h1
    have h2 : slice[i] = none := Option.some.inj (h5.symm.trans h4)
    rw [h2]
    rfl
  have hsdropend : slice.drop (i + n + 1) = m.array.drop (i + n + 1) := by
    rw [hsl, List.drop_set, if_pos (by omega)]
  have harr : swapUpLoop slice i m.len =
      m.array.take i ++ ((m.array.drop (i + 1)).take n ++
        (none :: m.array.drop (i + n + 1))) := by
    rw [hloop, hstake, hsdrop1, hsdropi, hsdropend]
    rfl
  -- the new occupied prefix
  have htki : (m.array.take i).length = i := by simp; omega
  have htkiq : m.array.take i = (m.toList.take i).map some := by
    have e1 : m.array.take i = (m.array.take m.len).take i := by
      rw [List.take_take]
      congr 1
      omega
    rw [e1, hwf.2.1, ← List.map_take]
  have hseg2 : (m.array.drop (i + 1)).take n = ((m.toList.drop (i + 1)).map some) := by
    have e1 : n = m.len - (i + 1) := by omega
    rw [e1, ← List.drop_take, hwf.2.1, ← List.map_drop]
  have hlseg : ((m.array.drop (i + 1)).take n).length = n := by
    simp [List.length_take, List.length_drop]
    omega
  have hprefix : (m.array.take i ++ ((m.array.drop (i + 1)).take n ++
      (none :: m.array.drop (i + n + 1)))).take (m.len - 1) =
      (removeKey m.toList k).map some := by
    rw [List.take_append_eq_append_take, htki]
    have e1 : (m.array.take i).take (m.len - 1) = m.array.take i := by
      rw [List.take_take]
      congr 1
      omega
    have e2 : m.len - 1 - i = n := by omega
    rw [e1, e2, List.take_append_eq_append_take, hlseg]
    have e3 : ((m.array.drop (i + 1)).take n).take n = (m.array.drop (i + 1)).take n := by
      rw [List.take_take]
      simp
    have e4 : n - n = 0 := by omega
    rw [e3, e4, List.take_zero, List.append_nil]
    rw [htkiq, hseg2, ← List.map_append]
    rw [← List.eraseIdx_eq_take_drop_succ, herase]
  set m' : ArrayMap K V := ⟨swapUpLoop slice i m.len, m.len - 1⟩ with hm'
  have hlen2 : m'.len = m.len - 1 := rfl
  have hpre2 : m'.array.take m'.len = (removeKey m.toList k).map some := by
    show (swapUpLoop slice i m.len).take (m.len - 1) = _
    rw [harr]
    exact hprefix
  have htl2 : m'.toList = removeKey m.toList k := by
    rw [ArrayMap.toList, hpre2, filterMap_id_map_some]
  have hlen3 : m'.array.length = m.array.length := by
    show (swapUpLoop slice i m.len).length = m.array.length
    rw [swapUpLoop_length, hslicelen]
  refine ⟨m', ?_, ⟨?_, ?_, ?_⟩, htl2, by omega, hlen3⟩
  · rw [ArrayMap.remove]
    simp only [hfind2]
    rw [ArrayMap.remove_index]
    simp only [hread]
    rfl
  · rw [hlen2, hlen3]
    omega
  · rw [hpre2, htl2]
  · rw [htl2]
    exact removeKey_sorted hwf.2.2

/-- `remove` of an absent key: `find` misses and nothing changes. -/
theorem ArrayMap.remove_absent {m : ArrayMap K V} {k : K}
    (hwf : m.WF) (hlook : lookupKey m.toList k = none) :
    m.remove k = (m, none) := by
  obtain ⟨i, hfind, _, _⟩ := listFind_absent hwf.2.2 (lookupKey_eq_none_iff.mp hlook)
  have hfind2 : m.find k = .error i := by rw [ArrayMap.find_eq_listFind hwf, hfind]
  rw [ArrayMap.remove]
  simp only [hfind2]

/-- `get` is association lookup on the occupied prefix. -/
theorem ArrayMap.get_eq_lookupKey {m : ArrayMap K V} (hwf : m.WF) (k : K) :
    m.get k = lookupKey m.toList k := by
  cases hl : lookupKey m.toList k with
  | none =>
    obtain ⟨i, hfind, _, _⟩ := listFind_absent hwf.2.2 (lookupKey_eq_none_iff.mp hl)
    have hfind2 : m.find k = .error i := by rw [ArrayMap.find_eq_listFind hwf, hfind]
    rw [ArrayMap.get]
    simp only [hfind2]
  | some w =>
    obtain ⟨i, hfind, hlt, hget, _, _⟩ := listFind_present hwf.2.2 hl
    have hlistlen : m.toList.length = m.len := ArrayMap.toList_length hwf
    have hi : i < m.len := by omega
    have hfind2 : m.find k = .ok i := by rw [ArrayMap.find_eq_listFind hwf, hfind]
    have hread : m.array.getD i none = some (k, w) := by
      rw [ArrayMap.read_prefix hwf hi, hget]
    rw [ArrayMap.get]
    simp only [hfind2, hread]
    rfl

end ArrayMapLemmas

/-! ## Historical ArrayMap (`src/lib.rs`)

The crate's earlier no-unsafe iteration: the backing array holds plain
(eagerly initialized, `Default`-requiring) pairs, so the model needs no
`Option` slots. -/

structure ArrayMapH (K V : Type _) where
  array : List (K × V)
  len : Nat
deriving DecidableEq

/-- The historical `find` (lib.rs): `binary_search_by_key` over `[0, len)`,
by the same contract as `listFind`. -/
def ArrayMapH.find {K V : Type _} [LinearOrder K] (m : ArrayMapH K V) (key : K) :
    Except Nat Nat :=
  listFind (m.array.take m.len) key

/-- The pair sequence of the historical map's occupied prefix. -/
def ArrayMapH.toList {K V : Type _} (m : ArrayMapH K V) : List (K × V) :=
  m.array.take m.len

/-- The historical `insert` (lib.rs lines 109-128).  No capacity check; on a
hit the slot is swapped and the old value returned; on a miss the shift loop
is `for j in ((i + 1)..self.len).rev()` — exclusive upper bound, hence
`swapDownFrom` started at `len - 1`, one iteration short of the
`..=self.len` loop of `array_map.rs` — then the new entry is swapped into
slot `i` (the displaced entry is dropped) and `len` incremented. -/
def ArrayMapH.insert {K V : Type _} [LinearOrder K] (m : ArrayMapH K V)
    (key : K) (value : V) : ArrayMapH K V × Option V :=
  match m.find key with
  | .ok i =>
    ({ m with array := m.array.set i (key, value) }, m.array[i]?.map Prod.snd)
  | .error i =>
    let slice := swapDownFrom m.array i (m.len - 1)
    ({ array := slice.set i (key, value), len := m.len + 1 }, none)

/-! ## ArraySet (`src/array_set.rs`), as far as the serde claim needs it -/

structure ArraySet (T : Type _) where
  array : List (Option T)
  len : Nat
deriving DecidableEq

/-- `ArraySet::new` / `Default::default`. -/
def ArraySet.new (T : Type _) (cap : Nat) : ArraySet T :=
  ⟨List.replicate cap none, 0⟩

/-- `ArraySet::capacity`. -/
def ArraySet.capacity {T : Type _} (s : ArraySet T) : Nat := s.array.length

/-- `binary_search_by_key` over the set's occupied prefix, by its contract. -/
def slotFindSet {T : Type _} [LinearOrder T] : List (Option T) → T → Except Nat Nat
  | [], _ => .error 0
  | s :: rest, x =>
    match s with
    | some y =>
      if y = x then .ok 0
      else
        match slotFindSet rest x with
        | .ok i => .ok (i + 1)
        | .error i => .error (if y < x then i + 1 else i)
    | none =>
      match slotFindSet rest x with
      | .ok i => .ok (i + 1)
      | .error i => .error i

/-- `ArraySet::find`. -/
def ArraySet.find {T : Type _} [LinearOrder T] (s : ArraySet T) (value : T) :
    Except Nat Nat :=
  slotFindSet (s.array.take s.len) value

/-- `ArraySet::try_insert`: `Ok(false)` when already present, `Ok(true)` after
a shift-and-place insert, `Err(value)` when full. -/
def ArraySet.try_insert {T : Type _} [LinearOrder T] (s : ArraySet T) (value : T) :
    ArraySet T × Except T Bool :=
  if s.len = s.capacity then (s, .error value)
  else
    match s.find value with
    | .ok _ => (s, .ok false)
    | .error i =>
      let slice := swapDownFrom s.array i s.len
      (⟨slice.set i (some value), s.len + 1⟩, .ok true)

/-- `ArraySet::insert`: `try_insert` with the capacity failure escalated to a
panic, modelled as `none`. -/
def ArraySet.insert {T : Type _} [LinearOrder T] (s : ArraySet T) (value : T) :
    Option (ArraySet T × Bool) :=
  match s.try_insert value with
  | (s', .ok b) => some (s', b)
  | (_, .error _) => none

/-! ## Serde deserialization (`src/serialize.rs`) -/

/-- How a deserialization run can fail: the structured
`Error::invalid_length` the visitors are meant to report, or a panic escaping
the visitor. -/
inductive DeError where
  | invalidLength (n : Nat)
  | panicked
deriving DecidableEq

/-- `ArrayMap`'s `visit_map` loop (serialize.rs lines 92-104): `try_insert`
each decoded entry into an initially empty map; a capacity rejection is
reported as `Error::invalid_length(A::CAPACITY + 1, ..)`. -/
def arrayMapVisitMap {K V : Type _} [LinearOrder K] (cap : Nat) :
    List (K × V) → ArrayMap K V → Except DeError (ArrayMap K V)
  | [], m => .ok m
  | (k, v) :: rest, m =>
    match m.try_insert k v with
    | (m', .ok _) => arrayMapVisitMap cap rest m'
    | (_, .error _) => .error (.invalidLength (cap + 1))

/-- `ArrayMap` deserialization from a decoded entry stream. -/
def ArrayMap.deserialize {K V : Type _} [LinearOrder K] (cap : Nat)
    (input : List (K × V)) : Except DeError (ArrayMap K V) :=
  arrayMapVisitMap cap input (ArrayMap.new K V cap)

/-- `ArraySet`'s `visit_seq` loop (serialize.rs lines 173-183): it calls the
panicking `insert`, not `try_insert`, so a capacity rejection panics instead
of producing a structured error. -/
def arraySetVisitSeq {T : Type _} [LinearOrder T] :
    List T → ArraySet T → Except DeError (ArraySet T)
  | [], s => .ok s
  | x :: rest, s =>
    match s.insert x with
    | some (s', _) => arraySetVisitSeq rest s'
    | none => .error .panicked

/-- `ArraySet` deserialization from a decoded element stream. -/
def ArraySet.deserialize {T : Type _} [LinearOrder T] (cap : Nat)
    (input : List T) : Except DeError (ArraySet T) :=
  arraySetVisitSeq input (ArraySet.new T cap)

/-! ## TinyMap (`src/tiny_map.rs`) -/

/-- Modelled from the spec (§6, "heap ordered-container provider"): the
external `std::collections::BTreeMap`, whose state is the strictly-sorted
association list of its entries; `insert` returns the replaced value. -/
def btreeInsert {K V : Type _} [LinearOrder K] (bt : List (K × V)) (k : K) (v : V) :
    List (K × V) × Option V :=
  (keyInsert bt k v, lookupKey bt k)

/-- Modelled from the spec: `BTreeMap::remove`, returning the removed value. -/
def btreeRemove {K V : Type _} [LinearOrder K] (bt : List (K × V)) (k : K) :
    List (K × V) × Option V :=
  (removeKey bt k, lookupKey bt k)

inductive TinyMap (K V : Type _) where
  | Stack (map : ArrayMap K V)
  | Heap (map : List (K × V))
deriving DecidableEq

/-- `TinyMap::new` / `Default::default`: an empty Stack map. -/
def TinyMap.new (K V : Type _) (cap : Nat) : TinyMap K V :=
  .Stack (ArrayMap.new K V cap)

/-- `TinyMap::clear` (tiny_map.rs lines 77-79): `*self = Self::new()` — an
empty Stack map, whatever the previous state. -/
def TinyMap.clear {K V : Type _} (cap : Nat) (_m : TinyMap K V) : TinyMap K V :=
  TinyMap.new K V cap

/-- `TinyMap::len`, dispatching on the state. -/
def TinyMap.len {K V : Type _} : TinyMap K V → Nat
  | .Stack m => m.len
  | .Heap m => m.length

/-- The pair sequence of `TinyMap::iter`. -/
def TinyMap.toList {K V : Type _} : TinyMap K V → List (K × V)
  | .Stack m => m.toList
  | .Heap m => m

/-- `TinyMap::get`, dispatching on the state. -/
def TinyMap.get {K V : Type _} [LinearOrder K] (m : TinyMap K V) (k : K) : Option V :=
  match m with
  | .Stack sm => sm.get k
  | .Heap hm => lookupKey hm k

/-- Whether the map is in the Heap state. -/
def TinyMap.isHeap {K V : Type _} : TinyMap K V → Bool
  | .Stack _ => false
  | .Heap _ => true

/-- `TinyMap::insert` (tiny_map.rs lines 191-209): Stack → `try_insert`; on a
capacity rejection the stack map is swapped out for a fresh default and its
contents drained by consuming iteration into a new `BTreeMap` (at that point
`len == CAPACITY`, so the consuming iteration over all `CAPACITY` slots
yields exactly the occupied prefix, in order), the rejected pair is inserted
there, and the state becomes Heap; Heap → `BTreeMap::insert`. -/
def TinyMap.insert {K V : Type _} [LinearOrder K] (m : TinyMap K V)
    (key : K) (value : V) : TinyMap K V × Option V :=
  match m with
  | .Stack sm =>
    match sm.try_insert key value with
    | (sm', .ok res) => (.Stack sm', res)
    | (_, .error (k, v)) =>
      let bt := insertList [] sm.toList
      let r := btreeInsert bt k v
      (.Heap r.1, r.2)
  | .Heap hm =>
    let r := btreeInsert hm key value
    (.Heap r.1, r.2)

/-- `TinyMap::remove`, dispatching on the state. -/
def TinyMap.remove {K V : Type _} [LinearOrder K] (m : TinyMap K V) (k : K) :
    TinyMap K V × Option V :=
  match m with
  | .Stack sm =>
    let r := sm.remove k
    (.Stack r.1, r.2)
  | .Heap hm =>
    let r := btreeRemove hm k
    (.Heap r.1, r.2)

/-- The state-mutating operations of `TinyMap`'s public interface (the
read-only operations — `get`, `get_mut`, `contains_key`, `entry`, iteration,
`len` — take the enum apart but never replace its tag). -/
inductive TOp (K V : Type _) where
  | ins (k : K) (v : V)
  | rem (k : K)
  | clr
deriving DecidableEq

/-- Apply one mutating operation (`cap` is the compile-time `A::CAPACITY`,
needed by `clear`'s `Self::new()`). -/
def TinyMap.applyOp {K V : Type _} [LinearOrder K] (cap : Nat) (m : TinyMap K V) :
    TOp K V → TinyMap K V
  | .ins k v => (m.insert k v).1
  | .rem k => (m.remove k).1
  | .clr => TinyMap.clear cap m

/-! ## Operation sequences -/

/-- Insert/remove alphabet for the ArrayMap sorted-invariant claim. -/
inductive MapOp (K V : Type _) where
  | ins (k : K) (v : V)
  | rem (k : K)
deriving DecidableEq

/-- One step of the invariant claim: the operation applied to the map,
alongside the ghost set of live keys — a key becomes live when an insert
actually inserts or updates it (a `try_insert` rejected for capacity inserts
nothing), and dies when removed. -/
def ArrayMap.stepOp {K V : Type _} [LinearOrder K] (st : ArrayMap K V × Finset K) :
    MapOp K V → ArrayMap K V × Finset K
  | .ins k v =>
    match st.1.try_insert k v with
    | (m', .ok _) => (m', Insert.insert k st.2)
    | (m', .error _) => (m', st.2)
  | .rem k =>
    let r := st.1.remove k
    (r.1, st.2.erase k)

/-- Run a sequence of operations from the empty map. -/
def ArrayMap.execOps {K V : Type _} [LinearOrder K] (cap : Nat)
    (ops : List (MapOp K V)) : ArrayMap K V × Finset K :=
  ops.foldl ArrayMap.stepOp (ArrayMap.new K V cap, ∅)

/-- Insert a batch with `try_insert`, recording whether every call
succeeded. -/
def ArrayMap.insertAll {K V : Type _} [LinearOrder K] (m : ArrayMap K V) :
    List (K × V) → ArrayMap K V × Bool
  | [] => (m, true)
  | (k, v) :: rest =>
    match m.try_insert k v with
    | (m', .ok _) => m'.insertAll rest
    | (m', .error _) => ((m'.insertAll rest).1, false)

/-- Insert a batch through `TinyMap::insert`. -/
def TinyMap.insertAll {K V : Type _} [LinearOrder K] (m : TinyMap K V) :
    List (K × V) → TinyMap K V
  | [] => m
  | (k, v) :: rest => ((m.insert k v).1).insertAll rest

/-! ## Batch and state-machine lemmas -/

section BatchLemmas

variable {K V : Type _} [LinearOrder K]

/-- Batch `try_insert` of pairwise-distinct fresh keys that fit: every call
succeeds and the occupied prefix accumulates the sorted inserts. -/
theorem ArrayMap.insertAll_fresh {ps : List (K × V)} :
    ∀ {m : ArrayMap K V}, m.WF → (keys ps).Nodup →
    (∀ e ∈ ps, e.1 ∉ keys m.toList) →
    m.len + ps.length ≤ m.array.length →
    ∃ M, m.insertAll ps = (M, true) ∧ M.WF ∧
      M.toList = insertList m.toList ps ∧ M.len = m.len + ps.length ∧
      M.array.length = m.array.length := by
  induction ps with
  | nil =>
    intro m hwf _ _ _
    exact ⟨m, rfl, hwf, rfl, by simp, rfl⟩
  | cons e rest ih =>
    intro m hwf hnd hdisj hroom
    obtain ⟨k, v⟩ := e
    rw [keys_cons, List.nodup_cons] at hnd
    simp only [List.length_cons] at hroom
    have hlt : m.len < m.array.length := by omega
    have habs : k ∉ keys m.toList := hdisj (k, v) (List.mem_cons_self _ _)
    obtain ⟨m', hrun, hwf', htl', hlen', hal'⟩ :=
      ArrayMap.try_insert_absent v hwf hlt habs
    have hdisj' : ∀ e' ∈ rest, e'.1 ∉ keys m'.toList := by
      intro e' he'
      rw [htl', mem_keys_keyInsert]
      rintro (hh | hh)
      · apply hnd.1
        rw [← hh]
        show e'.1 ∈ List.map Prod.fst rest
        exact List.mem_map_of_mem Prod.fst he'
      · exact hdisj e' (List.mem_cons_of_mem _ he') hh
    have hroom' : m'.len + rest.length ≤ m'.array.length := by
      rw [hlen', hal']
      omega
    obtain ⟨M, hrun2, hwfM, htlM, hlenM, halM⟩ := ih hwf' hnd.2 hdisj' hroom'
    refine ⟨M, ?_, hwfM, ?_, ?_, ?_⟩
    · simp only [ArrayMap.insertAll, hrun, hrun2]
    · rw [htlM, htl', insertList_cons]
    · rw [hlenM, hlen']
      simp only [List.length_cons]
      omega
    · rw [halM, hal']

/-- The stack phase of `TinyMap::insert` under the same conditions: the map
stays in the Stack state and agrees with the plain `ArrayMap` batch insert. -/
theorem TinyMap.insertAll_stack {ps : List (K × V)} :
    ∀ {m : ArrayMap K V}, m.WF → (keys ps).Nodup →
    (∀ e ∈ ps, e.1 ∉ keys m.toList) →
    m.len + ps.length ≤ m.array.length →
    (TinyMap.Stack m).insertAll ps = .Stack (m.insertAll ps).1 := by
  induction ps with
  | nil => intro m _ _ _ _; rfl
  | cons e rest ih =>
    intro m hwf hnd hdisj hroom
    obtain ⟨k, v⟩ := e
    rw [keys_cons, List.nodup_cons] at hnd
    simp only [List.length_cons] at hroom
    have hlt : m.len < m.array.length := by omega
    have habs : k ∉ keys m.toList := hdisj (k, v) (List.mem_cons_self _ _)
    obtain ⟨m', hrun, hwf', htl', hlen', hal'⟩ :=
      ArrayMap.try_insert_absent v hwf hlt habs
    have hdisj' : ∀ e' ∈ rest, e'.1 ∉ keys m'.toList := by
      intro e' he'
      rw [htl', mem_keys_keyInsert]
      rintro (hh | hh)
      · apply hnd.1
        rw [← hh]
        show e'.1 ∈ List.map Prod.fst rest
        exact List.mem_map_of_mem Prod.fst he'
      · exact hdisj e' (List.mem_cons_of_mem _ he') hh
    have hroom' : m'.len + rest.length ≤ m'.array.length := by
      rw [hlen', hal']
      omega
    simp only [TinyMap.insertAll, TinyMap.insert, hrun, ArrayMap.insertAll]
    exact ih hwf' hnd.2 hdisj' hroom'

/-- `try_insert` reports an error exactly when the map is full (the capacity
check is the only failure source). -/
theorem ArrayMap.try_insert_error_iff (m : ArrayMap K V) (k : K) (v : V) :
    (m.try_insert k v).2 = .error (k, v) ↔ m.len = m.array.length := by
  constructor
  · intro h
    by_contra hne
    have hnotfull : ¬ (m.len = m.capacity) := by
      rw [ArrayMap.capacity]
      exact hne
    rw [ArrayMap.try_insert, ArrayMap.try_insert_index, if_neg hnotfull] at h
    cases hfind : m.find k with
    | ok i =>
      simp only [hfind] at h
      exact Except.noConfusion h
    | error i =>
      simp only [hfind] at h
      exact Except.noConfusion h
  · intro h
    rw [ArrayMap.try_insert_full k v h]

/-- If `try_insert` succeeds, the map cannot have been full. -/
theorem ArrayMap.try_insert_ok_not_full {m : ArrayMap K V} {k : K} {v : V}
    {r : Option V} (h : (m.try_insert k v).2 = .ok r) : m.len ≠ m.array.length := by
  intro hfull
  rw [ArrayMap.try_insert_full k v hfull] at h
  exact Except.noConfusion h

/-- Finset of live keys after a sorted insert. -/
theorem keys_keyInsert_toFinset {es : List (K × V)} (k : K) (v : V) :
    (keys (keyInsert es k v)).toFinset = Insert.insert k (keys es).toFinset := by
  ext k'
  simp only [List.mem_toFinset, Finset.mem_insert]
  exact mem_keys_keyInsert

/-- Finset of live keys after a remove. -/
theorem keys_removeKey_toFinset {es : List (K × V)} {k : K}
    (hs : sortedKeys es) :
    (keys (removeKey es k)).toFinset = (keys es).toFinset.erase k := by
  ext k'
  simp only [List.mem_toFinset, Finset.mem_erase]
  rw [mem_keys_removeKey hs]
  tauto

/-- On a sorted list the number of entries is the number of distinct keys. -/
theorem length_eq_card_keys {es : List (K × V)} (hs : sortedKeys es) :
    es.length = (keys es).toFinset.card := by
  rw [List.toFinset_card_of_nodup (sortedKeys_nodup hs)]
  simp [keys]

end BatchLemmas

/-! ## Invariant preservation for operation sequences (claim C1) -/

section ExecInvariant

variable {K V : Type _} [LinearOrder K]

/-- The run invariant: a well-formed map of fixed capacity whose key set is
exactly the ghost live-key set. -/
def ExecInv (cap : Nat) (st : ArrayMap K V × Finset K) : Prop :=
  st.1.WF ∧ st.1.array.length = cap ∧ (keys st.1.toList).toFinset = st.2

theorem stepOp_preserves {cap : Nat} {st : ArrayMap K V × Finset K}
    (hinv : ExecInv cap st) (op : MapOp K V) :
    ExecInv cap (ArrayMap.stepOp st op) := by
  obtain ⟨hwf, hal, hfin⟩ := hinv
  cases op with
  | ins k v =>
    by_cases hfull : st.1.len = st.1.array.length
    · have hrun := ArrayMap.try_insert_full k v hfull
      simp only [ArrayMap.stepOp, hrun]
      exact ⟨hwf, hal, hfin⟩
    · have hlt : st.1.len < st.1.array.length := lt_of_le_of_ne hwf.1 hfull
      cases hl : lookupKey st.1.toList k with
      | none =>
        obtain ⟨m', hrun, hwf', htl', _, hal'⟩ :=
          ArrayMap.try_insert_absent v hwf hlt (lookupKey_eq_none_iff.mp hl)
        simp only [ArrayMap.stepOp, hrun]
        refine ⟨hwf', by rw [hal', hal], ?_⟩
        rw [htl', keys_keyInsert_toFinset, hfin]
      | some w =>
        obtain ⟨m', hrun, hwf', htl', _, hal'⟩ :=
          ArrayMap.try_insert_present v hwf hlt hl
        simp only [ArrayMap.stepOp, hrun]
        refine ⟨hwf', by rw [hal', hal], ?_⟩
        rw [htl', keys_keyInsert_toFinset, hfin]
    | rem k =>
      cases hl : lookupKey st.1.toList k with
      | none =>
        have hrun := ArrayMap.remove_absent hwf hl
        simp only [ArrayMap.stepOp, hrun]
        refine ⟨hwf, hal, ?_⟩
        have hnm : k ∉ (keys st.1.toList).toFinset := by
          rw [List.mem_toFinset]
          exact lookupKey_eq_none_iff.mp hl
        rw [hfin] at hnm
        rw [Finset.erase_eq_of_not_mem hnm, hfin]
      | some w =>
        obtain ⟨m', hrun, hwf', htl', _, hal'⟩ := ArrayMap.remove_present hwf hl
        simp only [ArrayMap.stepOp, hrun]
        refine ⟨hwf', by rw [hal', hal], ?_⟩
        rw [htl', keys_removeKey_toFinset hwf.2.2, hfin]

theorem execOps_inv (cap : Nat) (ops : List (MapOp K V)) :
    ExecInv cap (ArrayMap.execOps cap ops) := by
  have hinit : ExecInv cap ((ArrayMap.new K V cap, ∅) : ArrayMap K V × Finset K) := by
    refine ⟨ArrayMap.WF_new K V cap, by simp [ArrayMap.new], ?_⟩
    simp [ArrayMap.toList_new, keys]
  rw [ArrayMap.execOps]
  generalize hst : ((ArrayMap.new K V cap, ∅) : ArrayMap K V × Finset K) = st at hinit
  clear hst
  induction ops generalizing st with
  | nil => exact hinit
  | cons op rest ih =>
    rw [List.foldl_cons]
    exact ih _ (stepOp_preserves hinit op)

end ExecInvariant

/-- C1: for every sequence of insert/remove operations run from the empty
`ArrayMap` — and hence at every observation point of any longer sequence,
which is the run of one of its prefixes — iterating the map yields key-value
pairs in strictly ascending key order, and `len()` equals the number of
distinct live keys (keys whose insert succeeded and which were not
subsequently removed; a `try_insert` rejected for capacity inserts
nothing). -/
theorem C1_sorted_invariant {K V : Type _} [LinearOrder K] (cap : Nat)
    (ops : List (MapOp K V)) :
    (keys (ArrayMap.execOps cap ops).1.toList).Pairwise (· < ·) ∧
    (ArrayMap.execOps cap ops).1.len = (ArrayMap.execOps cap ops).2.card := by
  obtain ⟨hwf, hal, hfin⟩ := execOps_inv cap ops
  refine ⟨hwf.2.2, ?_⟩
  rw [← hfin, ← length_eq_card_keys hwf.2.2, ArrayMap.toList_length hwf]

deriving instance DecidableEq for Except

/-! ## Claim C2: capacity boundary -/

/-- C2: from the empty capacity-`cap` map, `try_insert` of `cap` pairwise
distinct keys all succeed and `len` reaches `cap`; a further `try_insert` of
a fresh key returns `Err` carrying back exactly the rejected pair, `len`
stays `cap`, and the map is returned in its pre-call state (the capacity
check precedes any mutation). -/
theorem C2_capacity_boundary {K V : Type _} [LinearOrder K] (cap : Nat)
    (ps : List (K × V)) (k : K) (v : V)
    (hlen : ps.length = cap) (hnd : (keys ps).Nodup) (_hfresh : k ∉ keys ps) :
    ∃ M, (ArrayMap.new K V cap).insertAll ps = (M, true) ∧
      M.len = cap ∧ M.try_insert k v = (M, .error (k, v)) := by
  have hdisj : ∀ e ∈ ps, e.1 ∉ keys (ArrayMap.new K V cap).toList := by
    intro e _
    rw [ArrayMap.toList_new]
    simp [keys]
  have hroom : (ArrayMap.new K V cap).len + ps.length ≤
      (ArrayMap.new K V cap).array.length := by
    simp [ArrayMap.new, hlen]
  obtain ⟨M, hrun, hwfM, htlM, hlenM, halM⟩ :=
    ArrayMap.insertAll_fresh (ArrayMap.WF_new K V cap) hnd hdisj hroom
  have hMlen : M.len = cap := by
    rw [hlenM]
    simp [ArrayMap.new, hlen]
  have hMfull : M.len = M.array.length := by
    rw [halM, hMlen]
    simp [ArrayMap.new]
  exact ⟨M, hrun, hMlen, ArrayMap.try_insert_full k v hMfull⟩

/-- Witness for C2: the spec's own concrete capacity-3 scenario. -/
theorem C2_capacity_boundary_witness :
    ∃ M, (ArrayMap.new Nat Nat 3).insertAll [(37, 1), (2, 2), (16, 3)] = (M, true) ∧
      M.len = 3 ∧ M.try_insert 0 4 = (M, .error (0, 4)) :=
  C2_capacity_boundary 3 [(37, 1), (2, 2), (16, 3)] 0 4 (by decide) (by decide)
    (by decide)

/-! ## Claim C3: round trip -/

/-- C3: on a map with room for one more element and `k` absent, `insert`
succeeds with `None`; `get` then yields the stored value, `remove` hands it
back, and a final `get` misses. -/
theorem C3_round_trip {K V : Type _} [LinearOrder K] (m : ArrayMap K V)
    (k : K) (v : V) (hwf : m.WF) (hroom : m.len < m.array.length)
    (habs : m.get k = none) :
    ∃ m1 m2, m.insert k v = some (m1, none) ∧ m1.get k = some v ∧
      m1.remove k = (m2, some v) ∧ m2.get k = none := by
  have hl : lookupKey m.toList k = none := by
    rw [← ArrayMap.get_eq_lookupKey hwf]
    exact habs
  obtain ⟨m1, hrun, hwf1, htl1, _, _⟩ :=
    ArrayMap.try_insert_absent v hwf hroom (lookupKey_eq_none_iff.mp hl)
  have hlook1 : lookupKey m1.toList k = some v := by
    rw [htl1]
    exact lookupKey_keyInsert_self k v
  obtain ⟨m2, hrun2, hwf2, htl2, _, _⟩ := ArrayMap.remove_present hwf1 hlook1
  refine ⟨m1, m2, ?_, ?_, hrun2, ?_⟩
  · simp only [ArrayMap.insert, hrun]
  · rw [ArrayMap.get_eq_lookupKey hwf1, hlook1]
  · rw [ArrayMap.get_eq_lookupKey hwf2, htl2]
    exact lookupKey_removeKey_self hwf1.2.2

/-- Witness for C3: the empty capacity-10 map and the spec's scenario pair. -/
theorem C3_round_trip_witness :
    ∃ m1 m2, (ArrayMap.new Nat Nat 10).insert 1 5 = some (m1, none) ∧
      m1.get 1 = some 5 ∧ m1.remove 1 = (m2, some 5) ∧ m2.get 1 = none :=
  C3_round_trip (ArrayMap.new Nat Nat 10) 1 5 (ArrayMap.WF_new Nat Nat 10)
    (by decide) (by decide)

instance {K V : Type _} [LinearOrder K] [DecidableEq V] (m : ArrayMap K V) :
    Decidable m.WF := by
  unfold ArrayMap.WF sortedKeys
  infer_instance

/-! ## Claim C6: update semantics -/

/-- Counterexample to C6 as stated: insert `(1, 5)` into the empty capacity-1
map; the resulting map contains key `1` and is at full capacity, yet
`try_insert(1, 7)` returns `Err((1, 7))` with the map untouched — not
`Ok(Some(5))` — because the capacity check precedes the key search. -/
theorem C6_counterexample :
    ((ArrayMap.new Nat Nat 1).insertAll [(1, 5)]).1.get 1 = some 5 ∧
    ((ArrayMap.new Nat Nat 1).insertAll [(1, 5)]).1.len =
      ((ArrayMap.new Nat Nat 1).insertAll [(1, 5)]).1.capacity ∧
    ((ArrayMap.new Nat Nat 1).insertAll [(1, 5)]).1.try_insert 1 7 =
      (((ArrayMap.new Nat Nat 1).insertAll [(1, 5)]).1, .error (1, 7)) := by
  decide

/-- C6 as amended: for a map that contains `k` with value `old`,
`try_insert(k, v)` returns `Ok(Some(old))` with `len` unchanged provided
`len < capacity`; at `len = capacity` the capacity check fires first and even
a present-key `try_insert` returns `Err` with the map untouched. -/
theorem C6_update_semantics {K V : Type _} [LinearOrder K] (m : ArrayMap K V)
    (k : K) (v old : V) (hwf : m.WF) (hlook : lookupKey m.toList k = some old) :
    (m.len < m.array.length →
      ∃ m', m.try_insert k v = (m', .ok (some old)) ∧ m'.len = m.len) ∧
    (m.len = m.array.length → m.try_insert k v = (m, .error (k, v))) := by
  constructor
  · intro hroom
    obtain ⟨m', hrun, _, _, hlen', _⟩ := ArrayMap.try_insert_present v hwf hroom hlook
    exact ⟨m', hrun, hlen'⟩
  · intro hfull
    exact ArrayMap.try_insert_full k v hfull

/-- Witness for C6 (amended): a capacity-2 map holding `(1, 5)`. -/
theorem C6_update_semantics_witness :
    ((ArrayMap.mk [some (1, 5), none] 1 : ArrayMap Nat Nat).len <
        (ArrayMap.mk [some (1, 5), none] 1 : ArrayMap Nat Nat).array.length →
      ∃ m', (ArrayMap.mk [some (1, 5), none] 1 : ArrayMap Nat Nat).try_insert 1 7 =
          (m', .ok (some 5)) ∧ m'.len = 1) ∧
    ((ArrayMap.mk [some (1, 5), none] 1 : ArrayMap Nat Nat).len =
        (ArrayMap.mk [some (1, 5), none] 1 : ArrayMap Nat Nat).array.length →
      (ArrayMap.mk [some (1, 5), none] 1 : ArrayMap Nat Nat).try_insert 1 7 =
        (ArrayMap.mk [some (1, 5), none] 1, .error (1, 7))) :=
  C6_update_semantics (ArrayMap.mk [some (1, 5), none] 1) 1 7 5 (by decide) (by decide)

/-! ## Claim C5: heap-state monotonicity -/

/-- Any `try_insert` error means the map was full (helper for C5). -/
theorem ArrayMap.try_insert_error_full {K V : Type _} [LinearOrder K]
    {m : ArrayMap K V} {k : K} {v : V} {e : K × V}
    (h : (m.try_insert k v).2 = .error e) : m.len = m.array.length := by
  by_contra hne
  have hnotfull : ¬ (m.len = m.capacity) := by
    rw [ArrayMap.capacity]
    exact hne
  rw [ArrayMap.try_insert, ArrayMap.try_insert_index, if_neg hnotfull] at h
  cases hfind : m.find k with
  | ok i =>
    simp only [hfind] at h
    exact Except.noConfusion h
  | error i =>
    simp only [hfind] at h
    exact Except.noConfusion h

/-- Counterexample to C5 as stated: a map driven into the Heap state by a
capacity-exceeding insert is returned to the Stack state by `clear` (which is
`*self = Self::new()`). -/
theorem C5_counterexample :
    ((TinyMap.new Nat Nat 1).insertAll [(1, 10), (2, 20)]).isHeap = true ∧
    (((TinyMap.new Nat Nat 1).insertAll [(1, 10), (2, 20)]).applyOp 1 .clr).isHeap
      = false := by
  decide

/-- C5 as amended: among the mutating operations, every one except `clear`
preserves the Heap state, and the only Stack-to-Heap transition is an insert
whose underlying `try_insert` hits the capacity check (`len == CAPACITY`);
`clear`, however, resets any map — Heap included — to the empty Stack
state. -/
theorem C5_heap_monotone_except_clear {K V : Type _} [LinearOrder K]
    (cap : Nat) (m : TinyMap K V) (op : TOp K V) :
    (op ≠ .clr →
      ((m.applyOp cap op).isHeap = true ↔
        m.isHeap = true ∨
        ∃ am k v, m = .Stack am ∧ op = .ins k v ∧ am.len = am.array.length)) ∧
    m.applyOp cap .clr = TinyMap.new K V cap := by
  refine ⟨?_, rfl⟩
  intro hne
  cases op with
  | clr => exact absurd rfl hne
  | rem k =>
    cases m with
    | Stack am =>
      simp only [TinyMap.applyOp, TinyMap.remove, TinyMap.isHeap]
      constructor
      · intro h
        exact absurd h (by simp)
      · rintro (h | ⟨am', k', v', _, hop, _⟩)
        · exact absurd h (by simp)
        · exact TOp.noConfusion hop
    | Heap hm =>
      simp only [TinyMap.applyOp, TinyMap.remove, TinyMap.isHeap]
      simp
  | ins k v =>
    cases m with
    | Heap hm =>
      simp only [TinyMap.applyOp, TinyMap.insert, TinyMap.isHeap]
      simp
    | Stack am =>
      rcases hrun : am.try_insert k v with ⟨am', r⟩
      cases r with
      | ok res =>
        simp only [TinyMap.applyOp, TinyMap.insert, hrun, TinyMap.isHeap]
        constructor
        · intro h
          exact absurd h (by simp)
        · rintro (h | ⟨am2, k2, v2, heq, hop, hfull⟩)
          · exact absurd h (by simp)
          · cases heq
            have : (am.try_insert k v).2 = .ok res := by rw [hrun]
            exact absurd hfull (ArrayMap.try_insert_ok_not_full this)
      | error e =>
        obtain ⟨ek, ev⟩ := e
        simp only [TinyMap.applyOp, TinyMap.insert, hrun, TinyMap.isHeap]
        constructor
        · intro _
          refine Or.inr ⟨am, k, v, rfl, rfl, ?_⟩
          have : (am.try_insert k v).2 = .error (ek, ev) := by rw [hrun]
          exact ArrayMap.try_insert_error_full this
        · intro _
          trivial

/-- Witness for C5 (amended): a heap-state map stays on the heap through a
remove. -/
theorem C5_heap_monotone_except_clear_witness :
    ((TinyMap.Heap [(1, 10)] : TinyMap Nat Nat).applyOp 1 (.rem 1)).isHeap = true ∨
    (TinyMap.Heap [(1, 10)] : TinyMap Nat Nat).applyOp 1 .clr = TinyMap.new Nat Nat 1 := by
  have h := C5_heap_monotone_except_clear 1 (TinyMap.Heap [(1, 10)] : TinyMap Nat Nat)
    (.rem 1)
  refine Or.inl ?_
  rw [(h.1 (by decide))]
  exact Or.inl (by decide)

/-! ## Claim C10: full-stack insert of a present key promotes -/

/-- C10: a Stack-state `TinyMap` whose inner map is full does not update a
present key in place — the capacity check precedes the key search, so
`try_insert` fails, the contents are drained to the heap, the pair inserted
there, `Some(old)` returned, and `len` stays put. -/
theorem C10_full_stack_present_key_promotes {K V : Type _} [LinearOrder K]
    (am : ArrayMap K V) (k : K) (v old : V) (hwf : am.WF)
    (hfull : am.len = am.array.length) (hlook : lookupKey am.toList k = some old) :
    TinyMap.insert (.Stack am) k v = (.Heap (keyInsert am.toList k v), some old) ∧
    (TinyMap.insert (.Stack am) k v).1.len = am.len ∧
    (TinyMap.insert (.Stack am) k v).1.isHeap = true := by
  have hrun := ArrayMap.try_insert_full k v hfull
  have hmain : TinyMap.insert (.Stack am) k v =
      (.Heap (keyInsert am.toList k v), some old) := by
    simp only [TinyMap.insert, hrun, insertList_sorted_self hwf.2.2, btreeInsert, hlook]
  refine ⟨hmain, ?_, ?_⟩
  · rw [hmain]
    show (keyInsert am.toList k v).length = am.len
    rw [length_keyInsert_present v hwf.2.2 hlook, ArrayMap.toList_length hwf]
  · rw [hmain]
    rfl

/-- Witness for C10: a full capacity-1 stack map holding `(1, 5)`. -/
theorem C10_full_stack_present_key_promotes_witness :
    TinyMap.insert (.Stack (ArrayMap.mk [some (1, 5)] 1)) 1 7 =
      (.Heap (keyInsert (ArrayMap.mk [some (1, 5)] 1 : ArrayMap Nat Nat).toList 1 7),
        some 5) ∧
    (TinyMap.insert (.Stack (ArrayMap.mk [some (1, 5)] 1 : ArrayMap Nat Nat)) 1 7).1.len
      = (ArrayMap.mk [some (1, 5)] 1 : ArrayMap Nat Nat).len ∧
    (TinyMap.insert (.Stack (ArrayMap.mk [some (1, 5)] 1 : ArrayMap Nat Nat)) 1 7).1.isHeap
      = true :=
  C10_full_stack_present_key_promotes (ArrayMap.mk [some (1, 5)] 1) 1 7 5
    (by decide) (by decide) (by decide)

/-! ## Claim C7: the entry view -/

/-- A vacant-index `try_insert_index` call coincides with `try_insert` when
the index is the one `find` computes (helper for C7). -/
theorem ArrayMap.try_insert_index_vacant {K V : Type _} [LinearOrder K]
    {m : ArrayMap K V} {k : K} {i : Nat} (d : V) (hfind : m.find k = .error i) :
    m.try_insert_index k d (some i) = m.try_insert k d := by
  rw [ArrayMap.try_insert, ArrayMap.try_insert_index, ArrayMap.try_insert_index]
  by_cases h : m.len = m.capacity
  · rw [if_pos h, if_pos h]
  · rw [if_neg h, if_neg h]
    simp only [hfind]

/-- C7: with room for one more element, `entry(k).or_insert(d)` returns the
value stored at `k` — leaving the map untouched when `k` was present, and
otherwise producing exactly the `insert(k, d)` result, with `(k, d)` placed
at the insertion index the `entry` search computed and the map still
sorted. -/
theorem C7_entry_or_insert {K V : Type _} [LinearOrder K] (m : ArrayMap K V)
    (k : K) (d : V) (hwf : m.WF) (hroom : m.len < m.array.length) :
    (∀ w, lookupKey m.toList k = some w →
      Entry.or_insert m (m.entry k) d = some (m, w)) ∧
    (lookupKey m.toList k = none →
      ∃ i m', m.entry k = .Vacant i k ∧ i ≤ m.toList.length ∧
        m.try_insert k d = (m', .ok none) ∧
        Entry.or_insert m (m.entry k) d = some (m', d) ∧
        m'.toList = m.toList.take i ++ (k, d) :: m.toList.drop i ∧
        sortedKeys m'.toList) := by
  constructor
  · intro w hlook
    obtain ⟨i, hfind, hlt, hget, _, _⟩ := listFind_present hwf.2.2 hlook
    have hfind2 : m.find k = .ok i := by rw [ArrayMap.find_eq_listFind hwf, hfind]
    have hi : i < m.len := by
      have := ArrayMap.toList_length hwf
      omega
    have hread : m.array.getD i none = some (k, w) := by
      rw [ArrayMap.read_prefix hwf hi, hget]
    simp only [ArrayMap.entry, hfind2, Entry.or_insert, hread]
    rfl
  · intro hlook
    have habs : k ∉ keys m.toList := lookupKey_eq_none_iff.mp hlook
    obtain ⟨i, hfind, hle, hcons⟩ := listFind_absent hwf.2.2 habs
    have hfind2 : m.find k = .error i := by rw [ArrayMap.find_eq_listFind hwf, hfind]
    obtain ⟨m', hrun, hwf', htl', hlen', _⟩ :=
      ArrayMap.try_insert_absent d hwf hroom habs
    have hentry : m.entry k = .Vacant i k := by
      simp only [ArrayMap.entry, hfind2]
    have htieq : m.try_insert_index k d (some i) = m.try_insert k d :=
      ArrayMap.try_insert_index_vacant d hfind2
    have htl2 : m'.toList = m.toList.take i ++ (k, d) :: m.toList.drop i := by
      rw [htl', ← hcons d]
    have htkl : (m.toList.take i).length = i := by
      simp
      omega
    have hgetm' : m'.toList[i]? = some (k, d) := by
      rw [htl2, List.getElem?_append_right (by omega)]
      rw [htkl]
      simp
    have hi' : i < m'.len := by
      have := ArrayMap.toList_length hwf
      omega
    have hread' : m'.array.getD i none = some (k, d) := by
      rw [ArrayMap.read_prefix hwf' hi', hgetm']
    refine ⟨i, m', hentry, hle, hrun, ?_, htl2, ?_⟩
    · rw [hentry]
      simp only [Entry.or_insert, htieq, hrun, hread']
      rfl
    · rw [htl']
      exact keyInsert_sorted hwf.2.2

/-- Witness for C7: a capacity-2 map holding `(5, 50)`, with an occupied hit
at key 5 and a vacant insert at key 3. -/
theorem C7_entry_or_insert_witness :
    (∀ w, lookupKey (ArrayMap.mk [some (5, 50), none] 1 : ArrayMap Nat Nat).toList 5
        = some w →
      Entry.or_insert (ArrayMap.mk [some (5, 50), none] 1)
        ((ArrayMap.mk [some (5, 50), none] 1 : ArrayMap Nat Nat).entry 5) 7
        = some (ArrayMap.mk [some (5, 50), none] 1, w)) ∧
    (lookupKey (ArrayMap.mk [some (5, 50), none] 1 : ArrayMap Nat Nat).toList 5
        = none →
      ∃ i m', (ArrayMap.mk [some (5, 50), none] 1 : ArrayMap Nat Nat).entry 5
          = .Vacant i 5 ∧
        i ≤ (ArrayMap.mk [some (5, 50), none] 1 : ArrayMap Nat Nat).toList.length ∧
        (ArrayMap.mk [some (5, 50), none] 1 : ArrayMap Nat Nat).try_insert 5 7
          = (m', .ok none) ∧
        Entry.or_insert (ArrayMap.mk [some (5, 50), none] 1)
          ((ArrayMap.mk [some (5, 50), none] 1 : ArrayMap Nat Nat).entry 5) 7
          = some (m', 7) ∧
        m'.toList = (ArrayMap.mk [some (5, 50), none] 1 : ArrayMap Nat Nat).toList.take i
          ++ (5, 7) :: (ArrayMap.mk [some (5, 50), none] 1 : ArrayMap Nat Nat).toList.drop i ∧
        sortedKeys m'.toList) :=
  C7_entry_or_insert (ArrayMap.mk [some (5, 50), none] 1) 5 7 (by decide) (by decide)

/-! ## Claim C4: promotion transparency -/

theorem TinyMap.insertAll_append {K V : Type _} [LinearOrder K]
    (m : TinyMap K V) (xs ys : List (K × V)) :
    m.insertAll (xs ++ ys) = (m.insertAll xs).insertAll ys := by
  induction xs generalizing m with
  | nil => rfl
  | cons e rest ih =>
    obtain ⟨k, v⟩ := e
    rw [List.cons_append, TinyMap.insertAll, TinyMap.insertAll]
    exact ih _

/-- C4: inserting `cap + 1` pairwise-distinct keys into a fresh `TinyMap` of
stack capacity `cap` all succeed (the model's `insert` is total — no panic
path exists); afterwards `len = cap + 1`, every inserted key is retrievable
with its value, iteration is still strictly ascending by key, and the map is
in the Heap state. -/
theorem C4_promotion_transparency {K V : Type _} [LinearOrder K] (cap : Nat)
    (ps : List (K × V)) (hlen : ps.length = cap + 1) (hnd : (keys ps).Nodup) :
    ((TinyMap.new K V cap).insertAll ps).len = cap + 1 ∧
    (∀ p ∈ ps, ((TinyMap.new K V cap).insertAll ps).get p.1 = some p.2) ∧
    (keys ((TinyMap.new K V cap).insertAll ps).toList).Pairwise (· < ·) ∧
    ((TinyMap.new K V cap).insertAll ps).isHeap = true := by
  have hne : ps ≠ [] := by
    intro h
    rw [h] at hlen
    simp at hlen
  set qs := ps.dropLast with hqs
  set q := ps.getLast hne with hq
  have hsplit : qs ++ [q] = ps := List.dropLast_append_getLast hne
  have hqlen : qs.length = cap := by
    have h1 : ps.dropLast.length = ps.length - 1 := List.length_dropLast ps
    rw [hqs]
    omega
  have hkeys_split : keys qs ++ [q.1] = keys ps := by
    have h2 : keys (qs ++ [q]) = keys qs ++ [q.1] := by simp [keys]
    rw [← hsplit, h2]
  have hnd2 : (keys qs ++ [q.1]).Nodup := by
    rw [hkeys_split]
    exact hnd
  rw [List.nodup_append] at hnd2
  have hndq : (keys qs).Nodup := hnd2.1
  have hqfresh : q.1 ∉ keys qs := fun hmem => hnd2.2.2 hmem (by simp)
  have hdisj : ∀ e ∈ qs, e.1 ∉ keys (ArrayMap.new K V cap).toList := by
    intro e _
    rw [ArrayMap.toList_new]
    simp [keys]
  have hroom : (ArrayMap.new K V cap).len + qs.length ≤
      (ArrayMap.new K V cap).array.length := by
    simp [ArrayMap.new, hqlen]
  have hstack := TinyMap.insertAll_stack (ArrayMap.WF_new K V cap) hndq hdisj hroom
  obtain ⟨M0, hrun0, hwf0, htl0, hlen0, hal0⟩ :=
    ArrayMap.insertAll_fresh (ArrayMap.WF_new K V cap) hndq hdisj hroom
  have htl0' : M0.toList = insertList [] qs := by
    rw [htl0, ArrayMap.toList_new]
  have hM0len : M0.len = cap := by
    rw [hlen0]
    simp [ArrayMap.new, hqlen]
  have hM0full : M0.len = M0.array.length := by
    rw [hal0, hM0len]
    simp [ArrayMap.new]
  have hq1abs : q.1 ∉ keys M0.toList := by
    rw [htl0', mem_keys_insertList]
    rintro (h | h)
    · exact hqfresh h
    · simp [keys] at h
  have hlookM0 : lookupKey M0.toList q.1 = none := lookupKey_eq_none_iff.mpr hq1abs
  have hfullrun := ArrayMap.try_insert_full q.1 q.2 hM0full
  have hfinal : TinyMap.insert (.Stack M0) q.1 q.2 =
      (.Heap (keyInsert M0.toList q.1 q.2), none) := by
    simp only [TinyMap.insert, hfullrun, insertList_sorted_self hwf0.2.2,
      btreeInsert, hlookM0]
  have hfull2 : (TinyMap.new K V cap).insertAll ps =
      .Heap (keyInsert M0.toList q.1 q.2) := by
    rw [← hsplit, TinyMap.insertAll_append]
    have e1 : (TinyMap.new K V cap).insertAll qs = .Stack M0 := by
      show (TinyMap.Stack (ArrayMap.new K V cap)).insertAll qs = .Stack M0
      rw [hstack, hrun0]
    rw [e1]
    show (TinyMap.insert (.Stack M0) q.1 q.2).1.insertAll [] = _
    rw [hfinal]
    rfl
  have hHlen : (keyInsert M0.toList q.1 q.2).length = cap + 1 := by
    rw [length_keyInsert_absent q.2 hq1abs, ArrayMap.toList_length hwf0, hM0len]
  have hsortedH : sortedKeys (keyInsert M0.toList q.1 q.2) :=
    keyInsert_sorted hwf0.2.2
  refine ⟨?_, ?_, ?_, ?_⟩
  · rw [hfull2]
    exact hHlen
  · intro p hp
    rw [hfull2]
    show lookupKey (keyInsert M0.toList q.1 q.2) p.1 = some p.2
    rw [← hsplit] at hp
    rcases List.mem_append.mp hp with hp | hp
    · have hne2 : p.1 ≠ q.1 := by
        intro he
        apply hqfresh
        rw [← he]
        show p.1 ∈ List.map Prod.fst qs
        exact List.mem_map_of_mem Prod.fst hp
      rw [lookupKey_keyInsert_ne q.2 hne2, htl0']
      exact lookupKey_insertList_mem hndq hp
    · have hpq : p = q := by simpa using hp
      rw [hpq]
      exact lookupKey_keyInsert_self q.1 q.2
  · rw [hfull2]
    exact hsortedH
  · rw [hfull2]
    rfl

/-- Witness for C4: capacity 1 and the two distinct keys 2 and 1. -/
theorem C4_promotion_transparency_witness :
    ((TinyMap.new Nat Nat 1).insertAll [(2, 20), (1, 10)]).len = 2 ∧
    (∀ p ∈ [(2, 20), (1, 10)],
      ((TinyMap.new Nat Nat 1).insertAll [(2, 20), (1, 10)]).get p.1 = some p.2) ∧
    (keys ((TinyMap.new Nat Nat 1).insertAll [(2, 20), (1, 10)]).toList).Pairwise
      (· < ·) ∧
    ((TinyMap.new Nat Nat 1).insertAll [(2, 20), (1, 10)]).isHeap = true :=
  C4_promotion_transparency 1 [(2, 20), (1, 10)] (by decide) (by decide)

/-! ## Claim C8: the historical default-value insert vs the current insert -/

/-- C8: evaluation of both inserts at the failing input.  Both maps hold
`{2 ↦ 10, 16 ↦ 11}` with `len = 2 < capacity = 3` (the historical map pads
the free slot with the default pair `(0, 0)`).  Inserting `(10, 12)` — an
absent key whose insertion point lies strictly below `len` — returns `None`
from both, but the current `array_map.rs` insert produces
`[(2,10), (10,12), (16,11)]` while the historical `lib.rs` insert, whose
shift loop `for j in ((i+1)..self.len).rev()` stops one slot short of the
`..=self.len` loop, overwrites and loses `(16, 11)` and lets the default
`(0, 0)` enter the occupied prefix: `[(2,10), (10,12), (0,0)]`. -/
theorem C8_historical_insert_divergence :
    ((ArrayMap.mk [some (2, 10), some (16, 11), none] 2 : ArrayMap Nat Nat).try_insert
        10 12).2 = .ok none ∧
    ((ArrayMap.mk [some (2, 10), some (16, 11), none] 2 : ArrayMap Nat Nat).try_insert
        10 12).1.toList = [(2, 10), (10, 12), (16, 11)] ∧
    ((ArrayMapH.mk [(2, 10), (16, 11), (0, 0)] 2 : ArrayMapH Nat Nat).insert
        10 12).2 = none ∧
    ((ArrayMapH.mk [(2, 10), (16, 11), (0, 0)] 2 : ArrayMapH Nat Nat).insert
        10 12).1.toList = [(2, 10), (10, 12), (0, 0)] ∧
    (ArrayMapH.mk [(2, 10), (16, 11), (0, 0)] 2 : ArrayMapH Nat Nat).toList
      = (ArrayMap.mk [some (2, 10), some (16, 11), none] 2 : ArrayMap Nat Nat).toList := by
  decide

/-! ## Claim C9: deserialization overflow -/

/-- C9: evaluation of both deserializers on a 3-entry input stream against
capacity 2.  The `ArrayMap` visitor reports the structured
`invalid_length(CAPACITY + 1)` error, but the `ArraySet` visitor calls the
panicking `insert` and terminates abnormally instead of returning a
structured length error. -/
theorem C9_deserialization_overflow :
    ArrayMap.deserialize 2 [((1 : Nat), (10 : Nat)), (2, 20), (3, 30)]
      = .error (.invalidLength 3) ∧
    ArraySet.deserialize 2 [(1 : Nat), 2, 3] = .error .panicked := by
  decide
